import Mathlib

/-!
# Verification of the AgenticSim discrete-event simulation kernel

Shallow embedding of the simulator core of the `mksim` package:

* `src/mksim/agentic/tool/tools.py`          — tool templates (five load accessors)
* `src/mksim/agentic/tool/tool_instance.py`  — runtime tool instances
* `src/mksim/agentic/request/request.py`     — requests holding a DAG of tools
* `src/mksim/simulator/event.py`             — events and the heapq-backed queue
* `src/mksim/simulator/resource.py`          — resource capacities
* `src/mksim/simulator/simulation_engine.py` — the event loop and allocator
* `src/mksim/metrics/collector.py`           — metrics snapshots

Python floats are modelled by `ℚ` (exact arithmetic; the scenarios use small
dyadic/decimal values), dictionaries over the closed resource enumeration by
total functions, and Python sets/dicts by lists together with the identifier
discipline the source uses (`ToolInstance.__eq__`/`__hash__` are by `tool_id`).
Mutable shared objects (tool instances referenced both from their request and
from the engine's active set) are modelled by a single authoritative store —
the request list — with the active set holding identifiers; every read and
write goes through that store, which is exactly the aliasing semantics of the
Python objects.  Raising code paths are modelled with `Except String`.
-/

namespace AgenticSim

/-- The closed resource enumeration (`ResourceType` in `tool_instance.py`). -/
inductive ResourceType where
  | cpu | npu | memory | network | disk
deriving DecidableEq, Repr

/-- Python's `for resource_type in ResourceType` iterates in declaration
order: CPU, NPU, MEMORY, NETWORK, DISK. -/
def ResourceType.all : List ResourceType :=
  [.cpu, .npu, .memory, .network, .disk]

/-- `ToolStatus` in `tool_instance.py`. -/
inductive ToolStatus where
  | pending | running | completed
deriving DecidableEq, Repr

/-- Modelled from the spec: `EPSILON` lives in `mksim/common/constants.py`,
which is not part of the provided sources; the spec fixes ε = 1 × 10⁻⁹
("Comparisons on remaining work use a fixed ε (e.g. 1 × 10⁻⁹)"), matching the
inline literal `1e-9` in `_find_next_completion`. -/
def EPSILON : ℚ := 1 / 1000000000

/-- A tool template (`AgenticTool` in `tools.py`): five non-negative load
accessors.  Concrete subclasses only differ in how the five numbers are
derived from configuration, so the template is its five loads. -/
structure AgenticTool where
  name : String
  cpuLoad : ℚ
  npuLoad : ℚ
  memoryLoad : ℚ
  networkLoad : ℚ
  diskLoad : ℚ
deriving Repr

/-- Load lookup by resource kind (the dispatch in `ToolInstance.get_load` /
`ToolInstance.initialize_work`). -/
def AgenticTool.load (t : AgenticTool) : ResourceType → ℚ
  | .cpu => t.cpuLoad
  | .npu => t.npuLoad
  | .memory => t.memoryLoad
  | .network => t.networkLoad
  | .disk => t.diskLoad

/-- `ToolInstance` (dataclass in `tool_instance.py`).  `tool_id` is the string
`"{request_id}_{tool_name}"`; since request ids are UUIDs (no underscore),
the id is in bijection with the pair `(request_id, tool_name)`, which is how
we model it (`ToolInstance.toolId` below).  The dataclass fields are exactly:
`tool_id, tool_name, request_id, tool_template, status, start_time,
finish_time, remaining_work` — note there is NO `request` field and NO
`current_share` field. -/
structure ToolInstance where
  requestId : Nat
  toolName : String
  toolTemplate : AgenticTool
  status : ToolStatus
  startTime : Option ℚ
  finishTime : Option ℚ
  remainingWork : ResourceType → ℚ

/-- The identifier the source's `__eq__`/`__hash__` use. -/
def ToolInstance.toolId (t : ToolInstance) : Nat × String :=
  (t.requestId, t.toolName)

/-- The declared attribute names of the `ToolInstance` dataclass, in source
order.  Accessing any other attribute raises `AttributeError` in Python. -/
def toolInstanceFieldNames : List String :=
  ["tool_id", "tool_name", "request_id", "tool_template",
   "status", "start_time", "finish_time", "remaining_work"]

/-- `ToolInstance.__post_init__` composed with the dataclass defaults:
constructing an instance with the default (empty) `remaining_work` leaves
status `PENDING`, both timestamps `None`, and `remaining_work` zero for every
resource kind. -/
def mkToolInstance (requestId : Nat) (toolName : String)
    (toolTemplate : AgenticTool) : ToolInstance where
  requestId := requestId
  toolName := toolName
  toolTemplate := toolTemplate
  status := .pending
  startTime := none
  finishTime := none
  remainingWork := fun _ => 0

/-- `ToolInstance.initialize_work`: copy the template's five loads into the
remaining-work vector. -/
def ToolInstance.initWork (t : ToolInstance) : ToolInstance :=
  { t with remainingWork := fun r => t.toolTemplate.load r }

/-- `ToolInstance.is_completed` with the default ε: all remaining-work values
are ≤ ε. -/
def ToolInstance.isCompleted (t : ToolInstance) : Bool :=
  ResourceType.all.all fun r => decide (t.remainingWork r ≤ EPSILON)

/-- `ToolInstance.has_work_on_resource` with the default ε. -/
def ToolInstance.hasWorkOnResource (t : ToolInstance) (r : ResourceType) : Bool :=
  decide (t.remainingWork r > EPSILON)

/-! ## Requests (`request.py`)

A `Request` holds a validated DAG template (`AgenticToolGraph`), modelled by
its node list (in networkx insertion order, which `nodes()` preserves) and its
edge list (a `DiGraph` has no parallel edges), plus the per-request tool
instance table, keyed by tool name. -/

structure Request where
  requestId : Nat
  requestType : String
  arrivalTime : ℚ
  dagNodes : List String
  dagEdges : List (String × String)
  toolInstances : List ToolInstance
  startTime : Option ℚ
  finishTime : Option ℚ

/-- Dictionary lookup `request.tool_instances[name]` (as an `Option`; Python
raises `KeyError` when the name is absent, which never happens on the
well-formed requests the engine builds). -/
def Request.findTool (req : Request) (name : String) : Option ToolInstance :=
  req.toolInstances.find? fun t => t.toolName == name

/-- `Request.is_completed`: all tool instances have status COMPLETED. -/
def Request.isCompleted (req : Request) : Bool :=
  req.toolInstances.all fun t => t.status == .completed

/-- `Request.get_latency`: `finish_time - arrival_time`, `None` if
unfinished. -/
def Request.getLatency (req : Request) : Option ℚ :=
  match req.finishTime with
  | none => none
  | some f => some (f - req.arrivalTime)

/-- `Request.get_root_tools`: nodes with in-degree 0. -/
def Request.getRootTools (req : Request) : List String :=
  req.dagNodes.filter fun n => req.dagEdges.all fun e => e.2 ≠ n

/-- `Request.get_dependencies`: direct DAG predecessors of a tool. -/
def Request.getDependencies (req : Request) (toolName : String) : List String :=
  (req.dagEdges.filter fun e => e.2 = toolName).map fun e => e.1

/-- `Request.get_dependents`: direct DAG successors of a tool. -/
def Request.getDependents (req : Request) (toolName : String) : List String :=
  (req.dagEdges.filter fun e => e.1 = toolName).map fun e => e.2

/-- `Request.can_start_tool`: all dependencies have status COMPLETED.
(Python indexes `tool_instances[dep]`; a missing instance would raise, and we
evaluate the check to `false` in that junk branch.) -/
def Request.canStartTool (req : Request) (toolName : String) : Bool :=
  (req.getDependencies toolName).all fun dep =>
    match req.findTool dep with
    | some t => t.status == .completed
    | none => false

/-! ## Events and the heapq-backed queue (`event.py`)

`Event` is a `@dataclass(order=True)` whose comparable fields, in declaration
order, are `timestamp` then `priority` (`event_type` and `payload` carry
`compare=False`).  Python therefore compares events lexicographically on
`(timestamp, priority)`.  The two event types and their payloads
(`{'request': Request}` / `{'tool_id': str}`) are merged into one payload
sum. -/

inductive EventPayload where
  | requestArrival (request : Request)
  | toolStart (toolId : Nat × String)

structure Event where
  timestamp : ℚ
  priority : ℤ
  payload : EventPayload

instance : Inhabited Event :=
  ⟨{ timestamp := 0, priority := 0, payload := .toolStart (0, "") }⟩

/-- The generated `Event.__lt__`: lexicographic on `(timestamp, priority)`. -/
def Event.ltB (a b : Event) : Bool :=
  decide (a.timestamp < b.timestamp) ||
    (decide (a.timestamp = b.timestamp) && decide (a.priority < b.priority))

/-! ### CPython's `heapq`

`EventQueue` stores events in a plain `heapq` heap.  The following four
functions are the CPython (pure-Python reference) implementations of
`heappush`/`heappop` and their helpers `_siftdown`/`_siftup`, transcribed on
lists: `heap[i]` becomes `getD i default` and `heap[i] = v` becomes
`set i v`. -/

/-- `heapq._siftdown(heap, startpos, pos)` given `newitem = heap[pos]`:
bubble `newitem` towards the root while it is `<` its parent.  The `while`
loop is driven by structural fuel; each iteration moves `pos` to its parent
`(pos - 1) / 2 < pos`, so fuel `pos` always suffices (and when the fuel
invariant `pos ≤ fuel` holds the `0` case coincides with the loop exit,
since it forces `pos = 0 ≤ startpos`). -/
def siftdownAux (newitem : Event) (startpos : Nat) :
    Nat → List Event → Nat → List Event
  | 0, heap, pos => heap.set pos newitem
  | fuel + 1, heap, pos =>
    if startpos < pos then
      let parentpos := (pos - 1) / 2
      let parent := heap.getD parentpos default
      if Event.ltB newitem parent then
        siftdownAux newitem startpos fuel (heap.set pos parent) parentpos
      else
        heap.set pos newitem
    else
      heap.set pos newitem

def siftdown (heap : List Event) (startpos pos : Nat) : List Event :=
  siftdownAux (heap.getD pos default) startpos pos heap pos

/-- The child-selection step of `heapq._siftup`: starting from the left
child `childpos`, move to `rightpos = childpos + 1` when the right child
exists and `not heap[childpos] < heap[rightpos]`. -/
def chooseChild (heap : List Event) (endpos childpos : Nat) : Nat :=
  if childpos + 1 < endpos &&
      !(Event.ltB (heap.getD childpos default)
        (heap.getD (childpos + 1) default)) then
    childpos + 1
  else childpos

/-- `heapq._siftup(heap, pos)` given `endpos = len(heap)`,
`startpos = pos₀` and `newitem = heap[pos₀]`: move the smaller child up
until reaching a leaf, then sift the new item down from the leaf.  The
`while` loop is again fuel-driven: `pos` strictly increases each iteration
while staying below `endpos`, so fuel `endpos` always suffices (when
`endpos - pos ≤ fuel` fails to hold for fuel `0`, then `pos ≥ endpos`, and
the `0` case coincides with the loop exit). -/
def siftupAux (endpos startpos : Nat) (newitem : Event) :
    Nat → List Event → Nat → List Event
  | 0, heap, pos => siftdown (heap.set pos newitem) startpos pos
  | fuel + 1, heap, pos =>
    if 2 * pos + 1 < endpos then
      let childpos := chooseChild heap endpos (2 * pos + 1)
      siftupAux endpos startpos newitem fuel
        (heap.set pos (heap.getD childpos default)) childpos
    else
      siftdown (heap.set pos newitem) startpos pos

def siftup (heap : List Event) (pos : Nat) : List Event :=
  siftupAux heap.length pos (heap.getD pos default) heap.length heap pos

/-- `heapq.heappush`: append, then sift the new leaf down towards the
root. -/
def heappush (heap : List Event) (item : Event) : List Event :=
  siftdown (heap ++ [item]) 0 heap.length

/-- `heapq.heappop`: pop the last element; if the heap is still non-empty,
return the root, move the last element to the root and sift it up.  Returns
`none` on an empty heap (Python raises `IndexError`). -/
def heappop (heap : List Event) : Option (Event × List Event) :=
  match heap.getLast? with
  | none => none
  | some lastelt =>
    let rest := heap.dropLast
    if rest.isEmpty then
      some (lastelt, rest)
    else
      some (rest.getD 0 default, siftup (rest.set 0 lastelt) 0)

/-- `EventQueue`: the heap list plus the `_event_counter` field.  The counter
is incremented on every push — its comment says it exists "For stable
ordering of same-timestamp events" — but it is never consulted anywhere:
ordering is entirely the raw heap's. -/
structure EventQueue where
  heap : List Event
  eventCounter : Nat

def EventQueue.empty : EventQueue := { heap := [], eventCounter := 0 }

/-- `EventQueue.push`. -/
def EventQueue.push (q : EventQueue) (event : Event) : EventQueue :=
  { heap := heappush q.heap event, eventCounter := q.eventCounter + 1 }

/-- `EventQueue.pop` (raises `IndexError` on empty). -/
def EventQueue.pop (q : EventQueue) : Option (Event × EventQueue) :=
  (heappop q.heap).map fun p => (p.1, { q with heap := p.2 })

/-- `EventQueue.peek`. -/
def EventQueue.peek (q : EventQueue) : Option Event :=
  q.heap.head?

/-! ## The simulation engine (`simulation_engine.py`)

`float('inf')` values (`next_start_time`, `next_completion_time`) are
modelled by `Option ℚ` with `none = +∞`; the helpers below implement exactly
the comparisons the source performs on them. -/

/-- `min` where `none` is `+∞`. -/
def infMin : Option ℚ → Option ℚ → Option ℚ
  | none, b => b
  | some a, none => some a
  | some a, some b => some (min a b)

/-- `x > c` where `none = +∞` (so always true at `none`). -/
def infGt (x : Option ℚ) (c : ℚ) : Bool :=
  match x with
  | none => true
  | some a => decide (a > c)

/-- `SimulationEngine` state.  `capacities` is the `ResourceManager`
(`get_capacity` lookup; `resource.py` validates every stored capacity to be
strictly positive and defaults absent kinds to `1e12`).  `requests` is the
dict `self.requests` (association by `requestId`), `active` the set
`self.active_tools` holding tool identifiers (the Python set holds the tool
objects themselves, hashed by `tool_id`; all object state lives in the
request store).  The engine is modelled without a metrics collector
(`metrics_collector=None`, as in the repository's tests), so the snapshot
call in `run` is a no-op. -/
structure SimulationEngine where
  capacities : ResourceType → ℚ
  currentTime : ℚ
  eventQueue : EventQueue
  requests : List Request
  active : List (Nat × String)
  completedRequests : List Nat
  totalSteps : Nat

/-- A fresh engine (`SimulationEngine.__init__`). -/
def mkEngine (capacities : ResourceType → ℚ) : SimulationEngine where
  capacities := capacities
  currentTime := 0
  eventQueue := EventQueue.empty
  requests := []
  active := []
  completedRequests := []
  totalSteps := 0

/-- `SimulationEngine.schedule_event`. -/
def SimulationEngine.scheduleEvent (s : SimulationEngine) (event : Event) :
    SimulationEngine :=
  { s with eventQueue := s.eventQueue.push event }

/-- `self.requests[request.request_id] = request`: overwrite or append. -/
def dictInsertRequest (reqs : List Request) (req : Request) : List Request :=
  if reqs.any fun q => q.requestId == req.requestId then
    reqs.map fun q => if q.requestId == req.requestId then req else q
  else
    reqs ++ [req]

/-- Update the tool instance identified by `tid` in place (the Python
mutation of the shared `ToolInstance` object). -/
def updateTool (reqs : List Request) (tid : Nat × String)
    (f : ToolInstance → ToolInstance) : List Request :=
  reqs.map fun req =>
    if req.requestId = tid.1 then
      { req with toolInstances := req.toolInstances.map fun t =>
          if t.toolName = tid.2 then f t else t }
    else req

/-- `SimulationEngine._find_tool_by_id`: locate the request whose id matches
the prefix of the tool id, then the instance with that exact tool id. -/
def SimulationEngine.findToolById (s : SimulationEngine) (tid : Nat × String) :
    Option ToolInstance :=
  s.requests.findSome? fun req =>
    if req.requestId = tid.1 then
      req.toolInstances.find? fun t => t.toolId = tid
    else none

/-- The active tools as instances (dereference the identifiers through the
store; in Python `self.active_tools` aliases the stored objects). -/
def SimulationEngine.activeToolInstances (s : SimulationEngine) :
    List ToolInstance :=
  s.active.filterMap fun tid => s.findToolById tid

/-- Number of active consumers of a resource (the `resource_consumers`
count in `_compute_resource_shares`). -/
def numConsumers (tools : List ToolInstance) (r : ResourceType) : Nat :=
  (tools.filter fun t => t.hasWorkOnResource r).length

/-- `SimulationEngine._compute_resource_shares`: capacity divided by the
consumer count when positive, else `0.0`. -/
def computeResourceShares (caps : ResourceType → ℚ)
    (tools : List ToolInstance) : ResourceType → ℚ :=
  fun r =>
    let n := numConsumers tools r
    if n > 0 then caps r / n else 0

/-- The running-minimum update `if completion_time < min_completion_time`
(with `none = +∞` as the initial accumulator). -/
def candMin (acc : Option ℚ) (ct : ℚ) : Option ℚ :=
  match acc with
  | none => some ct
  | some m => if ct < m then some ct else some m

/-- `SimulationEngine._find_next_completion` (time component; the returned
`completing_tool`/`completing_resource` are never consulted by `run`, and
which argmin they name depends on Python's unspecified set-iteration
order). -/
def SimulationEngine.findNextCompletion (s : SimulationEngine) : Option ℚ :=
  let tools := s.activeToolInstances
  if tools.isEmpty then
    none
  else
    let shares := computeResourceShares s.capacities tools
    tools.foldl
      (fun acc t =>
        ResourceType.all.foldl
          (fun acc r =>
            let remaining := t.remainingWork r
            if remaining ≤ EPSILON then acc
            else
              let share := shares r
              if share ≤ 0 then acc
              else candMin acc (s.currentTime + remaining / share))
          acc)
      none

/-- `SimulationEngine._handle_request_arrival`: store the request and push a
TOOL_START event (priority 0, current time) for every root tool. -/
def SimulationEngine.handleRequestArrival (s : SimulationEngine)
    (request : Request) : SimulationEngine :=
  let s := { s with requests := dictInsertRequest s.requests request }
  request.getRootTools.foldl
    (fun s toolName =>
      s.scheduleEvent
        { timestamp := s.currentTime, priority := 0,
          payload := .toolStart (request.requestId, toolName) })
    s

/-- `SimulationEngine._handle_tool_start`: mark the tool RUNNING, stamp its
start time, initialise its remaining work, add it to the active set, and set
the request's start time if unset.  Raises `ValueError` when the tool id is
unknown. -/
def SimulationEngine.handleToolStart (s : SimulationEngine)
    (tid : Nat × String) : Except String SimulationEngine :=
  match s.findToolById tid with
  | none => .error "Tool not found in any request"
  | some _ =>
    let s := { s with
      requests := updateTool s.requests tid fun t =>
        ({ t with status := .running, startTime := some s.currentTime }).initWork }
    let s := { s with
      active := if s.active.contains tid then s.active else s.active ++ [tid] }
    let s := { s with
      requests := s.requests.map fun req =>
        if req.requestId = tid.1 ∧ req.startTime = none then
          { req with startTime := some s.currentTime }
        else req }
    .ok s

/-- `SimulationEngine._check_and_start_dependents`: for every DAG successor
of the finished tool that can start (all dependencies completed) and is still
PENDING, push a TOOL_START event at the current time; then, if the whole
request is completed, stamp its finish time and append it to
`completed_requests`. -/
def SimulationEngine.checkAndStartDependents (s : SimulationEngine)
    (tid : Nat × String) : SimulationEngine :=
  match s.requests.find? fun req => req.requestId = tid.1 with
  | none => s
  | some req =>
    let s := (req.getDependents tid.2).foldl
      (fun s depName =>
        let pendingDep :=
          match req.findTool depName with
          | some t => t.status == ToolStatus.pending
          | none => false
        if req.canStartTool depName && pendingDep then
          s.scheduleEvent
            { timestamp := s.currentTime, priority := 0,
              payload := .toolStart (req.requestId, depName) }
        else s)
      s
    if req.isCompleted then
      { s with
        requests := s.requests.map fun q =>
          if q.requestId = req.requestId then
            { q with finishTime := some s.currentTime }
          else q,
        completedRequests := s.completedRequests ++ [req.requestId] }
    else s

/-- Finalisation of one completed tool inside
`_handle_resource_completion`: status COMPLETED, finish time stamped, removed
from the active set, dependents considered. -/
def SimulationEngine.finalizeTool (s : SimulationEngine) (tid : Nat × String) :
    SimulationEngine :=
  let s := { s with
    requests := updateTool s.requests tid fun t =>
      { t with status := .completed, finishTime := some s.currentTime } }
  let s := { s with active := s.active.filter fun a => a ≠ tid }
  s.checkAndStartDependents tid

/-- `SimulationEngine._handle_resource_completion`: subtract
`share × time_delta` (clamped at 0) from every active tool's remaining work
on every resource it still consumes, then finalise every tool whose
`is_completed` now holds. -/
def SimulationEngine.handleResourceCompletion (s : SimulationEngine)
    (timeDelta : ℚ) : SimulationEngine :=
  let shares := computeResourceShares s.capacities s.activeToolInstances
  let s := s.active.foldl
    (fun s tid =>
      { s with requests := updateTool s.requests tid fun t =>
          { t with remainingWork := fun r =>
              if t.hasWorkOnResource r then
                max 0 (t.remainingWork r - shares r * timeDelta)
              else t.remainingWork r } })
    s
  let finished := (s.activeToolInstances.filter fun t => t.isCompleted).map
    fun t => t.toolId
  finished.foldl (fun s tid => s.finalizeTool tid) s

/-- One iteration of the `while True` loop in `SimulationEngine.run`.
`.ok none` means the loop `break`s, `.ok (some s')` continues with `s'`
(step counter already incremented), `.error` propagates the `ValueError`
from `_handle_tool_start`. -/
def SimulationEngine.step (untilT : ℚ) (maxSteps : Option Nat)
    (s : SimulationEngine) : Except String (Option SimulationEngine) :=
  if (match maxSteps with
      | some m => decide (s.totalSteps ≥ m)
      | none => false : Bool) then
    .ok none
  else
    let nextStartTime : Option ℚ := (s.eventQueue.peek).map fun e => e.timestamp
    if infGt nextStartTime untilT && s.active.isEmpty then
      .ok none
    else
      let nextCompletionTime := s.findNextCompletion
      let nextTime := infMin nextStartTime nextCompletionTime
      match nextTime with
      | none => .ok none
      | some t =>
        if t > untilT then
          .ok none
        else
          if some t = nextStartTime then
            match s.eventQueue.pop with
            | none => .error "pop from empty EventQueue"
            | some (event, queue) =>
              let s := { s with eventQueue := queue,
                                currentTime := event.timestamp }
              match event.payload with
              | .requestArrival request =>
                .ok (some (bump (s.handleRequestArrival request)))
              | .toolStart tid =>
                (s.handleToolStart tid).map fun s' => some (bump s')
          else
            let timeDelta := t - s.currentTime
            let s := { s with currentTime := t }
            .ok (some (bump (s.handleResourceCompletion timeDelta)))
where
  /-- `self.total_steps += 1` at the bottom of the loop body. -/
  bump (s : SimulationEngine) : SimulationEngine :=
    { s with totalSteps := s.totalSteps + 1 }

/-- `SimulationEngine.run(until, max_steps)`, driven by explicit fuel (the
source loops until a `break`; every theorem below supplies enough fuel for
the loop to reach its `break`). -/
def SimulationEngine.runAux (untilT : ℚ) (maxSteps : Option Nat) :
    Nat → SimulationEngine → Except String SimulationEngine
  | 0, s => .ok s
  | fuel + 1, s =>
    match s.step untilT maxSteps with
    | .error e => .error e
    | .ok none => .ok s
    | .ok (some s') => SimulationEngine.runAux untilT maxSteps fuel s'

/-! ## `Request.create_from_dag` (`request.py`, lines 36-78)

The classmethod builds the request object and then, for every DAG node,
calls the dataclass constructor
`ToolInstance(tool_id=..., tool_name=..., request_id=..., tool_template=...,
request=request)`.  Python's calling convention rejects a keyword argument
that does not name a declared field with a `TypeError`; the check below is
that convention applied to this specific call site. -/

/-- The keyword-argument names `create_from_dag` passes to `ToolInstance`. -/
def createFromDagCallKwargs : List String :=
  ["tool_id", "tool_name", "request_id", "tool_template", "request"]

/-- Calling the generated `ToolInstance.__init__` with the call site's
keywords: raises `TypeError` on the first keyword that is not a dataclass
field. -/
def toolInstanceCallCheck : Except String Unit :=
  match createFromDagCallKwargs.find? fun k =>
      !(toolInstanceFieldNames.contains k) with
  | some k =>
    .error ("TypeError: ToolInstance.__init__() got an unexpected keyword argument " ++ k)
  | none => .ok ()

/-- `Request.create_from_dag`: create the request, then one tool instance
per DAG node (each constructor call passing the `request=request`
back-reference). -/
def createFromDag (requestType : String) (arrivalTime : ℚ)
    (dagNodes : List String) (dagEdges : List (String × String))
    (tasks : String → AgenticTool) (requestId : Nat) :
    Except String Request := do
  let req : Request :=
    { requestId := requestId, requestType := requestType,
      arrivalTime := arrivalTime, dagNodes := dagNodes,
      dagEdges := dagEdges, toolInstances := [],
      startTime := none, finishTime := none }
  let req ← dagNodes.foldlM
    (fun (req : Request) toolName => do
      toolInstanceCallCheck
      .ok { req with toolInstances :=
              req.toolInstances ++ [mkToolInstance requestId toolName (tasks toolName)] })
    req
  .ok req

/-! ## `MetricsCollector.snapshot` (`collector.py`, lines 60-113)

The snapshot sums `tool.current_share[resource_type]` over the active tools
that still have work on the kind.  `ToolInstance` declares no
`current_share` attribute and no code in the repository ever assigns one, so
in Python that attribute access raises `AttributeError`; the generator
inside `sum(...)` is lazy, so the access (and hence the error) happens
exactly when at least one consuming tool exists. -/

/-- `ResourceType.value` (the enum's string value). -/
def ResourceType.value : ResourceType → String
  | .cpu => "cpu"
  | .npu => "npu"
  | .memory => "memory"
  | .network => "network"
  | .disk => "disk"

/-- The attribute access `tool.current_share`: `AttributeError` unless
`current_share` is among the instance's attributes. -/
def getattrCurrentShare (_tool : ToolInstance) :
    Except String (ResourceType → ℚ) :=
  if toolInstanceFieldNames.contains "current_share" then
    .ok fun _ => 0
  else
    .error "AttributeError: ToolInstance object has no attribute current_share"

/-- `sum(tool.current_share[resource_type] for tool in ... )` over an
already-filtered consumer list; the attribute access happens per element. -/
def sumCurrentShares (tools : List ToolInstance) (r : ResourceType) :
    Except String ℚ :=
  match tools with
  | [] => .ok 0
  | t :: rest => do
    let share ← getattrCurrentShare t
    let s ← sumCurrentShares rest r
    .ok (share r + s)

/-- One entry of `utilization_snapshots`. -/
structure UtilSnapshot where
  time : ℚ
  utilization : List (String × ℚ)
  consumers : List (ResourceType × Nat)

/-- `MetricsCollector.snapshot`: per kind, utilisation = summed
`current_share` over consumers divided by capacity (kinds with capacity 0
are recorded as 0 and skipped), plus the consumer counts. -/
def MetricsCollector.snapshot (currentTime : ℚ)
    (activeTools : List ToolInstance) (caps : ResourceType → ℚ) :
    Except String UtilSnapshot := do
  let acc ← ResourceType.all.foldlM
    (fun (acc : List (String × ℚ) × List (ResourceType × Nat)) r => do
      let capacity := caps r
      if capacity = 0 then
        .ok (acc.1 ++ [(r.value, 0)], acc.2)
      else do
        let consumers := activeTools.filter fun t => t.hasWorkOnResource r
        let total ← sumCurrentShares consumers r
        .ok (acc.1 ++ [(r.value, total / capacity)], acc.2 ++ [(r, consumers.length)]))
    ([], [])
  .ok { time := currentTime, utilization := acc.1, consumers := acc.2 }

/-! ## Spec-side definition for the next-completion oracle (claim C2)

Following the spec's words: "For each active tool t and each kind r with
remaining_t[r] > ε and share(t, r) > 0, compute t_done(t, r) =
now + remaining_t[r] / share(t, r).  Return the minimum across all such
pairs.  If A is empty return +∞." -/
def nextCompletionCandidates (now : ℚ) (caps : ResourceType → ℚ)
    (tools : List ToolInstance) : List ℚ :=
  tools.flatMap fun t =>
    ResourceType.all.filterMap fun r =>
      if EPSILON < t.remainingWork r ∧ 0 < computeResourceShares caps tools r then
        some (now + t.remainingWork r / computeResourceShares caps tools r)
      else none

/-! ## Concrete scenarios used by the claims -/

/-- The test capacities (`test_basic_simulation.py`, `setUp`):
cpu=npu=network=disk=100, memory=1000. -/
def capsTest : ResourceType → ℚ
  | .cpu => 100
  | .npu => 100
  | .memory => 1000
  | .network => 100
  | .disk => 100

/-- A template with the given cpu and network loads and no other load. -/
def mkSimpleTool (name : String) (cpuLoad networkLoad : ℚ) : AgenticTool where
  name := name
  cpuLoad := cpuLoad
  npuLoad := 0
  memoryLoad := 0
  networkLoad := networkLoad
  diskLoad := 0

/-- Scenario C3 (`test_fair_share_two_tools`): two root tools,
A: cpu=100 net=50, B: cpu=80, no edges, single request arriving at 0. -/
def requestC3 : Request where
  requestId := 0
  requestType := "test"
  arrivalTime := 0
  dagNodes := ["tool_a", "tool_b"]
  dagEdges := []
  toolInstances :=
    [mkToolInstance 0 "tool_a" (mkSimpleTool "tool_a" 100 50),
     mkToolInstance 0 "tool_b" (mkSimpleTool "tool_b" 80 0)]
  startTime := none
  finishTime := none

/-- The C3 run: schedule the arrival at t=0 and run until t=10 (the test's
`engine.run(until=10.0)`); 12 units of fuel are more than the 6 loop
iterations the run needs before its `break`. -/
def runC3 : Except String SimulationEngine :=
  SimulationEngine.runAux 10 none 12
    ((mkEngine capsTest).scheduleEvent
      { timestamp := 0, priority := 0, payload := .requestArrival requestC3 })

/-- Scenario C5: one tool whose template has zero load on every resource. -/
def requestC5 : Request where
  requestId := 0
  requestType := "test"
  arrivalTime := 0
  dagNodes := ["z", "w"]
  dagEdges := [("z", "w")]
  toolInstances :=
    [mkToolInstance 0 "z" (mkSimpleTool "z" 0 0),
     mkToolInstance 0 "w" (mkSimpleTool "w" 10 0)]
  startTime := none
  finishTime := none

def runC5 : Except String SimulationEngine :=
  SimulationEngine.runAux 10 none 12
    ((mkEngine capsTest).scheduleEvent
      { timestamp := 0, priority := 0, payload := .requestArrival requestC5 })

/-- Status, start and finish of one tool of a finished run. -/
def toolOutcome (result : Except String SimulationEngine)
    (tid : Nat × String) : Option (ToolStatus × Option ℚ × Option ℚ) :=
  match result with
  | .error _ => none
  | .ok s => (s.findToolById tid).map fun t => (t.status, t.startTime, t.finishTime)

/-- Latency of the first stored request of a finished run. -/
def latencyOutcome (result : Except String SimulationEngine) : Option ℚ :=
  match result with
  | .error _ => none
  | .ok s => s.requests.head?.bind Request.getLatency

/-- Scenario C8: four events with identical timestamp 0 and identical
priority 0, distinguishable by their payloads, pushed in order 1, 2, 3, 4. -/
def mkTieEvent (i : Nat) : Event :=
  { timestamp := 0, priority := 0, payload := .toolStart (i, "") }

def queueC8 : EventQueue :=
  [mkTieEvent 1, mkTieEvent 2, mkTieEvent 3, mkTieEvent 4].foldl
    EventQueue.push EventQueue.empty

/-- Drain a queue, recording the payload identifiers in pop order. -/
def popAllIds : EventQueue → Nat → List Nat
  | _, 0 => []
  | q, n + 1 =>
    match q.pop with
    | none => []
    | some (e, q') =>
      (match e.payload with
       | .toolStart tid => tid.1
       | .requestArrival req => req.requestId) :: popAllIds q' n

/-- Scenario C9: a request A → B where A is still PENDING, with a TOOL_START
for B being processed. -/
def requestC9 : Request where
  requestId := 0
  requestType := "test"
  arrivalTime := 0
  dagNodes := ["tool_a", "tool_b"]
  dagEdges := [("tool_a", "tool_b")]
  toolInstances :=
    [mkToolInstance 0 "tool_a" (mkSimpleTool "tool_a" 50 0),
     mkToolInstance 0 "tool_b" (mkSimpleTool "tool_b" 30 0)]
  startTime := none
  finishTime := none

def engineC9 : SimulationEngine :=
  { mkEngine capsTest with requests := [requestC9] }

/-- Scenario C7: one RUNNING tool with work on the cpu axis. -/
def activeToolC7 : ToolInstance :=
  { (mkToolInstance 0 "tool_a" (mkSimpleTool "tool_a" 100 50)).initWork with
    status := .running, startTime := some 0 }

/-- A one-consumer active set for the C1 witness. -/
def toolsC1 : List ToolInstance :=
  [activeToolC7]

/-- The error message of a raising computation, if any. -/
def errorOf {α : Type} : Except String α → Option String
  | .error e => some e
  | .ok _ => none

/-! ## Specification-side definitions for the dependency invariant (claim C6)

The heap order, the binary-heap shape predicate, and the run invariant the
proof of C6 maintains. -/

/-- The non-strict counterpart of `Event.__lt__`: lexicographic `≤` on
`(timestamp, priority)`. -/
def Event.le (a b : Event) : Prop :=
  a.timestamp < b.timestamp ∨
    (a.timestamp = b.timestamp ∧ a.priority ≤ b.priority)

/-- `j` is a child index of `i` in the breadth-first array layout `heapq`
uses. -/
def childOf (i j : Nat) : Prop :=
  j = 2 * i + 1 ∨ j = 2 * i + 2

/-- The `heapq` invariant: every parent is `≤` its children. -/
def IsMinHeap (l : List Event) : Prop :=
  ∀ i j, childOf i j → j < l.length →
    Event.le (l.getD i default) (l.getD j default)

/-- Well-formedness of a request as the validated `AgenticToolGraph` plus
`create_from_dag` produce it: tool names unique, instances carry the owning
request id, the `DiGraph` edge set has no duplicates and (acyclicity) no
self-loops. -/
def WFRequest (req : Request) : Prop :=
  (req.toolInstances.map ToolInstance.toolName).Nodup ∧
  (∀ t ∈ req.toolInstances, t.requestId = req.requestId) ∧
  req.dagNodes.Nodup ∧
  req.dagEdges.Nodup ∧
  (∀ e ∈ req.dagEdges, e.1 ≠ e.2)

/-- A request as delivered by the arrival generator: no tool has run yet. -/
def FreshRequest (req : Request) : Prop :=
  ∀ t ∈ req.toolInstances, t.status = .pending

/-- All DAG predecessors of `name` inside `req` are COMPLETED with a finish
time at most `bound`. -/
def PredsDone (req : Request) (name : String) (bound : ℚ) : Prop :=
  ∀ e ∈ req.dagEdges, e.2 = name →
    ∀ tp ∈ req.toolInstances, tp.toolName = e.1 →
      tp.status = .completed ∧ ∃ f, tp.finishTime = some f ∧ f ≤ bound

/-- Every instance of `req` named `name` is still PENDING. -/
def TargetPending (req : Request) (name : String) : Prop :=
  ∀ t ∈ req.toolInstances, t.toolName = name → t.status = .pending

/-- Two events do not schedule the same tool instance. -/
def DistinctToolTargets (e1 e2 : Event) : Prop :=
  ∀ tid1 tid2, e1.payload = .toolStart tid1 → e2.payload = .toolStart tid2 →
    tid1 ≠ tid2

/-- Two events do not deliver requests with the same identifier. -/
def DistinctArrivalIds (e1 e2 : Event) : Prop :=
  ∀ r1 r2, e1.payload = .requestArrival r1 → e2.payload = .requestArrival r2 →
    r1.requestId ≠ r2.requestId

/-- The run invariant for claim C6.  Clause names used in the proofs:
`reqIds` (stored request ids distinct), `wf` (stored requests well-formed),
`qStart` (every queued TOOL_START targets an existing request, its target's
predecessors are all completed no later than the event's timestamp, and its
target is still pending), `qStartDistinct`, `qArrival` (queued arrivals are
fresh, well-formed and carry unseen ids), `qArrivalDistinct`, `time`
(queued events lie at or after the current time), `heap` (the event list is
a binary min-heap), `started` (every non-pending tool has a start time and
its predecessors completed before it), `done` (every completed tool has a
finish time ≤ now), and `act` (the active set holds distinct ids of RUNNING
tools). -/
structure EngineInv (s : SimulationEngine) : Prop where
  reqIds : (s.requests.map Request.requestId).Nodup
  wf : ∀ req ∈ s.requests, WFRequest req
  qStart : ∀ e ∈ s.eventQueue.heap, ∀ tid, e.payload = .toolStart tid →
    (∃ req ∈ s.requests, req.requestId = tid.1) ∧
    (∀ req ∈ s.requests, req.requestId = tid.1 →
      PredsDone req tid.2 e.timestamp ∧ TargetPending req tid.2)
  qStartDistinct : s.eventQueue.heap.Pairwise DistinctToolTargets
  qArrival : ∀ e ∈ s.eventQueue.heap, ∀ req, e.payload = .requestArrival req →
    WFRequest req ∧ FreshRequest req ∧
      ∀ q ∈ s.requests, q.requestId ≠ req.requestId
  qArrivalDistinct : s.eventQueue.heap.Pairwise DistinctArrivalIds
  time : ∀ e ∈ s.eventQueue.heap, s.currentTime ≤ e.timestamp
  heap : IsMinHeap s.eventQueue.heap
  started : ∀ req ∈ s.requests, ∀ t ∈ req.toolInstances, t.status ≠ .pending →
    ∃ st, t.startTime = some st ∧ PredsDone req t.toolName st
  done : ∀ req ∈ s.requests, ∀ t ∈ req.toolInstances, t.status = .completed →
    ∃ f, t.finishTime = some f ∧ f ≤ s.currentTime
  act : s.active.Nodup ∧
    ∀ tid ∈ s.active, ∃ t, s.findToolById tid = some t ∧ t.status = .running

/-- Scenario for the dependency-order claim: one request whose DAG chains
`a → b` (a: cpu 50, b: cpu 50), delivered at t = 0. -/
def requestC6 : Request where
  requestId := 7
  requestType := "test"
  arrivalTime := 0
  dagNodes := ["a", "b"]
  dagEdges := [("a", "b")]
  toolInstances :=
    [mkToolInstance 7 "a" (mkSimpleTool "a" 50 0),
     mkToolInstance 7 "b" (mkSimpleTool "b" 50 0)]
  startTime := none
  finishTime := none

/-- The arrival event delivering `requestC6`. -/
def evtC6 : Event :=
  { timestamp := 0, priority := 0, payload := .requestArrival requestC6 }

/-- The C6 run: schedule the arrival, run until t=10 (ample fuel). -/
def runC6 : Except String SimulationEngine :=
  SimulationEngine.runAux 10 none 12
    ([evtC6].foldl SimulationEngine.scheduleEvent (mkEngine capsTest))

/-- The final engine state of the C6 run. -/
def finalC6 : SimulationEngine :=
  (runC6.toOption).getD (mkEngine capsTest)

/-! # Helper lemmas -/

theorem sum_map_const {α : Type} (l : List α) (c : ℚ) :
    (l.map fun _ => c).sum = l.length * c := by
  induction l with
  | nil => simp
  | cons a l ih => simp [ih]; ring

theorem candMin_some (m c : ℚ) : candMin (some m) c = some (min m c) := by
  rcases lt_or_le c m with h | h
  · simp [candMin, h, min_eq_right h.le]
  · simp [candMin, not_lt.mpr h, min_eq_left h]

theorem foldl_candMin_some (l : List ℚ) :
    ∀ m : ℚ, l.foldl candMin (some m) = some (l.foldl min m) := by
  induction l with
  | nil => intro m; rfl
  | cons a l ih => intro m; simp only [List.foldl_cons, candMin_some, ih]

theorem foldl_candMin_none (l : List ℚ) : l.foldl candMin none = l.min? := by
  cases l with
  | nil => rfl
  | cons a l =>
    show l.foldl candMin (candMin none a) = (a :: l).min?
    have h1 : candMin none a = some a := rfl
    have h2 : (a :: l).min? = some (l.foldl min a) := rfl
    rw [h1, h2, foldl_candMin_some]

/-- The nested guarded minimum fold of `_find_next_completion` equals a
`candMin` fold over the filtered candidate list. -/
theorem foldl_if_filterMap {α : Type} (c1 c2 : α → Prop) [DecidablePred c1]
    [DecidablePred c2] (v : α → ℚ) (l : List α) (acc : Option ℚ) :
    l.foldl (fun a x => if c1 x then a else if c2 x then a else candMin a (v x)) acc
      = (l.filterMap fun x => if ¬ c1 x ∧ ¬ c2 x then some (v x) else none).foldl
          candMin acc := by
  induction l generalizing acc with
  | nil => rfl
  | cons x l ih =>
    simp only [List.foldl_cons, List.filterMap_cons]
    by_cases h1 : c1 x
    · rw [if_pos h1, if_neg (by tauto)]; exact ih acc
    · by_cases h2 : c2 x
      · rw [if_neg h1, if_pos h2, if_neg (by tauto)]; exact ih acc
      · rw [if_neg h1, if_neg h2, if_pos ⟨h1, h2⟩]
        exact ih (candMin acc (v x))

/-- The double fold of `_find_next_completion` (over active tools, then
resource kinds) equals the `candMin` fold over the spec's candidate list. -/
theorem engine_fold_eq_candidates (caps : ResourceType → ℚ) (now : ℚ)
    (allTools : List ToolInstance) (l : List ToolInstance) (acc : Option ℚ) :
    l.foldl
      (fun acc t => ResourceType.all.foldl
        (fun acc r =>
          if t.remainingWork r ≤ EPSILON then acc
          else
            if computeResourceShares caps allTools r ≤ 0 then acc
            else candMin acc
              (now + t.remainingWork r / computeResourceShares caps allTools r))
        acc)
      acc
      = (l.flatMap fun t => ResourceType.all.filterMap fun r =>
          if EPSILON < t.remainingWork r ∧
              0 < computeResourceShares caps allTools r then
            some (now + t.remainingWork r / computeResourceShares caps allTools r)
          else none).foldl candMin acc := by
  induction l generalizing acc with
  | nil => rfl
  | cons t l ih =>
    simp only [List.foldl_cons, List.flatMap_cons, List.foldl_append]
    have hinner :
        ResourceType.all.foldl
          (fun acc r =>
            if t.remainingWork r ≤ EPSILON then acc
            else
              if computeResourceShares caps allTools r ≤ 0 then acc
              else candMin acc
                (now + t.remainingWork r / computeResourceShares caps allTools r))
          acc
          = (ResourceType.all.filterMap fun r =>
              if EPSILON < t.remainingWork r ∧
                  0 < computeResourceShares caps allTools r then
                some (now + t.remainingWork r /
                  computeResourceShares caps allTools r)
              else none).foldl candMin acc := by
      have h := foldl_if_filterMap
        (fun r => t.remainingWork r ≤ EPSILON)
        (fun r => computeResourceShares caps allTools r ≤ 0)
        (fun r => now + t.remainingWork r / computeResourceShares caps allTools r)
        ResourceType.all acc
      simpa only [not_le] using h
    rw [hinner, ih]

/-- `findSome?` through a pointwise `Option.map`. -/
theorem findSome?_option_map {α β γ : Type} (l : List α) (h : α → Option β)
    (f : β → γ) :
    l.findSome? (fun a => (h a).map f) = (l.findSome? h).map f := by
  induction l with
  | nil => rfl
  | cons a l ih =>
    cases hh : h a with
    | none => simp [List.findSome?_cons, hh, ih]
    | some b => simp [List.findSome?_cons, hh]

/-! # Heap lemmas

CPython's `heapq` really is a binary min-heap: `heappush`/`heappop` permute
the stored events, preserve the heap shape, and `heappop` returns the root,
which is a minimum.  These facts drive the time-monotonicity part of the
run invariant. -/

theorem Event.le_refl (a : Event) : Event.le a a := Or.inr ⟨rfl, le_rfl⟩

theorem Event.le_trans {a b c : Event} (h1 : Event.le a b) (h2 : Event.le b c) :
    Event.le a c := by
  rcases h1 with h1 | ⟨h1, h1'⟩ <;> rcases h2 with h2 | ⟨h2, h2'⟩
  · exact Or.inl (h1.trans h2)
  · exact Or.inl (h2 ▸ h1)
  · exact Or.inl (h1 ▸ h2)
  · exact Or.inr ⟨h1.trans h2, h1'.trans h2'⟩

theorem Event.ltB_iff {a b : Event} :
    Event.ltB a b = true ↔
      a.timestamp < b.timestamp ∨
        (a.timestamp = b.timestamp ∧ a.priority < b.priority) := by
  simp [Event.ltB]

theorem Event.le_of_ltB {a b : Event} (h : Event.ltB a b = true) :
    Event.le a b := by
  rcases Event.ltB_iff.mp h with h | ⟨h, h'⟩
  · exact Or.inl h
  · exact Or.inr ⟨h, h'.le⟩

theorem Event.le_of_not_ltB {a b : Event} (h : Event.ltB a b = false) :
    Event.le b a := by
  have h' := h ▸ Event.ltB_iff (a := a) (b := b)
  simp only [Bool.false_eq_true, false_iff, not_or, not_and, not_lt] at h'
  obtain ⟨h1, h2⟩ := h'
  rcases lt_or_eq_of_le h1 with hlt | heq
  · exact Or.inl hlt
  · exact Or.inr ⟨heq, h2 heq.symm⟩

theorem Event.le_timestamp {a b : Event} (h : Event.le a b) :
    a.timestamp ≤ b.timestamp := by
  rcases h with h | ⟨h, _⟩
  · exact h.le
  · exact h.le

theorem getD_set_self {α : Type} [Inhabited α] (l : List α) (i : Nat) (a : α)
    (h : i < l.length) : (l.set i a).getD i default = a := by
  rw [List.getD_eq_getElem _ _ (by simpa using h)]
  exact List.getElem_set_self _

theorem getD_set_other {α : Type} [Inhabited α] (l : List α) {i j : Nat}
    (a : α) (h : i ≠ j) : (l.set i a).getD j default = l.getD j default := by
  by_cases hj : j < l.length
  · rw [List.getD_eq_getElem _ _ (by simpa using hj),
      List.getD_eq_getElem _ _ hj]
    exact List.getElem_set_ne h _
  · rw [List.getD_eq_default _ _ (by simpa using not_lt.mp hj),
      List.getD_eq_default _ _ (not_lt.mp hj)]

theorem set_perm_cons_eraseIdx {α : Type} (l : List α) (i : Nat) (a : α)
    (h : i < l.length) : (l.set i a).Perm (a :: l.eraseIdx i) := by
  induction l generalizing i with
  | nil => simp at h
  | cons b t ih =>
    cases i with
    | zero => simp [List.set, List.eraseIdx]
    | succ i =>
      simp only [List.set, List.eraseIdx]
      have hi : i < t.length := by simpa using h
      exact ((ih i hi).cons b).trans (List.Perm.swap a b _)

theorem perm_getD_cons_eraseIdx {α : Type} (l : List α) (i : Nat) (d : α)
    (h : i < l.length) : l.Perm (l.getD i d :: l.eraseIdx i) := by
  induction l generalizing i with
  | nil => simp at h
  | cons b t ih =>
    cases i with
    | zero => simp [List.eraseIdx]
    | succ i =>
      simp only [List.getD_cons_succ, List.eraseIdx]
      have hi : i < t.length := by simpa using h
      exact ((ih i hi).cons b).trans (List.Perm.swap _ b _)

theorem set_getD_eraseIdx_perm {α : Type} (l : List α) (i j : Nat) (d : α)
    (hij : i ≠ j) (hi : i < l.length) (hj : j < l.length) :
    ((l.set i (l.getD j d)).eraseIdx j).Perm (l.eraseIdx i) := by
  induction l generalizing i j with
  | nil => simp at hi
  | cons b t ih =>
    cases i with
    | zero =>
      cases j with
      | zero => exact absurd rfl hij
      | succ j =>
        have hjt : j < t.length := by simpa using hj
        simp only [List.getD_cons_succ, List.set, List.eraseIdx]
        exact (perm_getD_cons_eraseIdx t j d hjt).symm
    | succ i =>
      cases j with
      | zero =>
        have hit : i < t.length := by simpa using hi
        simp only [List.getD_cons_zero, List.set, List.eraseIdx]
        exact set_perm_cons_eraseIdx t i b hit
      | succ j =>
        have hit : i < t.length := by simpa using hi
        have hjt : j < t.length := by simpa using hj
        simp only [List.getD_cons_succ, List.set, List.eraseIdx]
        exact (ih i j (by omega) hit hjt).cons b

theorem set_set_perm {α : Type} (l : List α) (i j : Nat) (x d : α)
    (hij : i ≠ j) (hi : i < l.length) (hj : j < l.length) :
    ((l.set i (l.getD j d)).set j x).Perm (l.set i x) := by
  have h1 : ((l.set i (l.getD j d)).set j x).Perm
      (x :: (l.set i (l.getD j d)).eraseIdx j) :=
    set_perm_cons_eraseIdx _ j x (by simpa using hj)
  have h2 : (l.set i x).Perm (x :: l.eraseIdx i) :=
    set_perm_cons_eraseIdx l i x hi
  exact h1.trans
    (((set_getD_eraseIdx_perm l i j d hij hi hj).cons x).trans h2.symm)

theorem siftdownAux_perm (newitem : Event) (sp : Nat) :
    ∀ (fuel : Nat) (heap : List Event) (pos : Nat), pos < heap.length →
      (siftdownAux newitem sp fuel heap pos).Perm (heap.set pos newitem) := by
  intro fuel
  induction fuel with
  | zero => intro heap pos _; exact List.Perm.refl _
  | succ fuel ih =>
    intro heap pos hpos
    rw [siftdownAux]
    by_cases hsp : sp < pos
    · rw [if_pos hsp]
      by_cases hlt : Event.ltB newitem (heap.getD ((pos - 1) / 2) default) = true
      · rw [if_pos hlt]
        have hpar : (pos - 1) / 2 < heap.length := by omega
        have hrec := ih (heap.set pos (heap.getD ((pos - 1) / 2) default))
          ((pos - 1) / 2) (by simpa using hpar)
        exact hrec.trans
          (set_set_perm heap pos ((pos - 1) / 2) newitem default
            (by omega) hpos hpar)
      · rw [if_neg (by simpa using hlt)]
    · rw [if_neg hsp]

theorem childOf_pos {i j : Nat} (h : childOf i j) : 0 < j := by
  rcases h with h | h <;> omega

theorem childOf_lt {i j : Nat} (h : childOf i j) : i < j := by
  rcases h with h | h <;> omega

theorem childOf_parent_eq {i j : Nat} (h : childOf i j) : i = (j - 1) / 2 := by
  rcases h with h | h <;> omega

theorem parent_childOf {j : Nat} (h : 0 < j) : childOf ((j - 1) / 2) j := by
  unfold childOf
  omega

/-- Writing `newitem` into a hole whose surroundings satisfy the sift-down
invariant produces a heap. -/
theorem place_at_hole (newitem : Event) (heap : List Event) (pos : Nat)
    (hpos : pos < heap.length)
    (hA : ∀ i j, childOf i j → j < heap.length → j ≠ pos →
      Event.le (heap.getD i default) (heap.getD j default))
    (hB : ∀ j, childOf pos j → j < heap.length →
      Event.le newitem (heap.getD j default))
    (hparent : 0 < pos →
      Event.le (heap.getD ((pos - 1) / 2) default) newitem) :
    IsMinHeap (heap.set pos newitem) := by
  intro i j hc hj
  rw [List.length_set] at hj
  by_cases hjp : j = pos
  · subst hjp
    have hip : i = (j - 1) / 2 := childOf_parent_eq hc
    have hine : i ≠ j := Nat.ne_of_lt (childOf_lt hc)
    rw [getD_set_self _ _ _ hj, getD_set_other _ _ (Ne.symm hine)]
    exact hip ▸ hparent (childOf_pos hc)
  · by_cases hip : i = pos
    · subst hip
      rw [getD_set_self _ _ _ hpos, getD_set_other _ _ (Ne.symm hjp)]
      exact hB j hc hj
    · rw [getD_set_other _ _ (Ne.symm hip), getD_set_other _ _ (Ne.symm hjp)]
      exact hA i j hc hj hjp

theorem siftdownAux_minHeap (newitem : Event) :
    ∀ (fuel : Nat) (heap : List Event) (pos : Nat), pos ≤ fuel →
      pos < heap.length →
      (∀ i j, childOf i j → j < heap.length → j ≠ pos →
        Event.le (heap.getD i default) (heap.getD j default)) →
      (∀ j, childOf pos j → j < heap.length →
        Event.le newitem (heap.getD j default)) →
      (∀ j, childOf pos j → j < heap.length → 0 < pos →
        Event.le (heap.getD ((pos - 1) / 2) default) (heap.getD j default)) →
      IsMinHeap (siftdownAux newitem 0 fuel heap pos) := by
  intro fuel
  induction fuel with
  | zero =>
    intro heap pos hfuel hpos hA hB _hC
    have hp0 : pos = 0 := Nat.le_zero.mp hfuel
    subst hp0
    exact place_at_hole newitem heap 0 hpos hA hB (fun h => absurd h (by omega))
  | succ fuel ih =>
    intro heap pos hfuel hpos hA hB hC
    rw [siftdownAux]
    by_cases h0 : 0 < pos
    · rw [if_pos h0]
      by_cases hlt : Event.ltB newitem (heap.getD ((pos - 1) / 2) default) = true
      · rw [if_pos hlt]
        have hpar : (pos - 1) / 2 < heap.length := by omega
        have hparne : (pos - 1) / 2 ≠ pos := by omega
        have hgd : ∀ k, k ≠ pos →
            (heap.set pos (heap.getD ((pos - 1) / 2) default)).getD k default
              = heap.getD k default :=
          fun k hk => getD_set_other _ _ (Ne.symm hk)
        have hgdeq :
            (heap.set pos (heap.getD ((pos - 1) / 2) default)).getD pos default
              = heap.getD ((pos - 1) / 2) default :=
          getD_set_self _ _ _ hpos
        refine ih (heap.set pos (heap.getD ((pos - 1) / 2) default))
          ((pos - 1) / 2) (by omega) (by rw [List.length_set]; omega)
          ?_ ?_ ?_
        · -- (A) for the new hole
          intro i j hc hj hjpar
          rw [List.length_set] at hj
          by_cases hjp : j = pos
          · subst hjp
            have hieq : i = (j - 1) / 2 := childOf_parent_eq hc
            rw [hgd i (by omega), hgdeq, hieq]
            exact Event.le_refl _
          · by_cases hip : i = pos
            · subst hip
              rw [hgdeq, hgd j hjp]
              exact hC j hc hj h0
            · rw [hgd i hip, hgd j hjp]
              exact hA i j hc hj hjp
        · -- (B) for the new hole
          intro j hc hj
          rw [List.length_set] at hj
          by_cases hjp : j = pos
          · subst hjp
            rw [hgdeq]
            exact Event.le_of_ltB hlt
          · rw [hgd j hjp]
            exact Event.le_trans (Event.le_of_ltB hlt) (hA _ j hc hj hjp)
        · -- (C) for the new hole
          intro j hc hj hpar0
          rw [List.length_set] at hj
          have hgp : ((pos - 1) / 2 - 1) / 2 ≠ pos := by omega
          have hgppar : childOf (((pos - 1) / 2 - 1) / 2) ((pos - 1) / 2) :=
            parent_childOf hpar0
          by_cases hjp : j = pos
          · subst hjp
            rw [hgd _ hgp, hgdeq]
            exact hA _ _ hgppar hpar hparne
          · rw [hgd _ hgp, hgd j hjp]
            exact Event.le_trans (hA _ _ hgppar hpar hparne)
              (hA _ j hc hj hjp)
      · rw [if_neg (by simpa using hlt)]
        exact place_at_hole newitem heap pos hpos hA hB
          (fun _ => Event.le_of_not_ltB (by simpa using hlt))
    · rw [if_neg h0]
      exact place_at_hole newitem heap pos hpos hA hB
        (fun h => absurd h h0)

theorem siftupAux_perm (endpos sp : Nat) (newitem : Event) :
    ∀ (fuel : Nat) (heap : List Event) (pos : Nat), pos < heap.length →
      endpos ≤ heap.length →
      (siftupAux endpos sp newitem fuel heap pos).Perm (heap.set pos newitem) := by
  have hbase : ∀ (heap : List Event) (pos : Nat), pos < heap.length →
      (siftdown (heap.set pos newitem) sp pos).Perm (heap.set pos newitem) := by
    intro heap pos hpos
    unfold siftdown
    rw [getD_set_self _ _ _ hpos]
    have := siftdownAux_perm newitem sp pos (heap.set pos newitem) pos
      (by simpa using hpos)
    rw [List.set_set] at this
    exact this
  intro fuel
  induction fuel with
  | zero => intro heap pos hpos _; exact hbase heap pos hpos
  | succ fuel ih =>
    intro heap pos hpos hend
    rw [siftupAux]
    by_cases hc : 2 * pos + 1 < endpos
    · rw [if_pos hc]
      have hcpos : pos < chooseChild heap endpos (2 * pos + 1) := by
        unfold chooseChild; split <;> omega
      have hclen : chooseChild heap endpos (2 * pos + 1) < heap.length := by
        unfold chooseChild
        split
        · next hcond =>
          have := (Bool.and_eq_true _ _).mp hcond
          exact lt_of_lt_of_le (by simpa using this.1) hend
        · exact lt_of_lt_of_le hc hend
      have := ih
        (heap.set pos (heap.getD (chooseChild heap endpos (2 * pos + 1)) default))
        (chooseChild heap endpos (2 * pos + 1))
        (by simpa using hclen) (by simpa using hend)
      refine this.trans ?_
      exact set_set_perm heap pos (chooseChild heap endpos (2 * pos + 1))
        newitem default (by omega) hpos hclen
    · rw [if_neg hc]
      exact hbase heap pos hpos

theorem chooseChild_spec (heap : List Event) (endpos pos : Nat)
    (h : 2 * pos + 1 < endpos) :
    childOf pos (chooseChild heap endpos (2 * pos + 1)) ∧
    chooseChild heap endpos (2 * pos + 1) < endpos ∧
    ∀ j, childOf pos j → j < endpos →
      Event.le (heap.getD (chooseChild heap endpos (2 * pos + 1)) default)
        (heap.getD j default) := by
  unfold chooseChild
  by_cases hr : 2 * pos + 1 + 1 < endpos
  · by_cases hlt : Event.ltB (heap.getD (2 * pos + 1) default)
        (heap.getD (2 * pos + 1 + 1) default) = true
    · rw [if_neg (by rw [hlt]; simp)]
      refine ⟨Or.inl rfl, h, ?_⟩
      intro j hj _
      rcases hj with hj | hj <;> subst hj
      · exact Event.le_refl _
      · exact Event.le_of_ltB hlt
    · have hltf : Event.ltB (heap.getD (2 * pos + 1) default)
          (heap.getD (2 * pos + 1 + 1) default) = false := by
        revert hlt
        cases Event.ltB (heap.getD (2 * pos + 1) default)
          (heap.getD (2 * pos + 1 + 1) default) <;> simp
      rw [if_pos (by rw [hltf]; simp [hr])]
      refine ⟨Or.inr (by omega), by omega, ?_⟩
      intro j hj _
      rcases hj with hj | hj <;> subst hj
      · exact Event.le_of_not_ltB (by simpa using hlt)
      · show Event.le (heap.getD (2 * pos + 1 + 1) default)
          (heap.getD (2 * pos + 2) default)
        have h22 : 2 * pos + 1 + 1 = 2 * pos + 2 := by omega
        rw [h22]
        exact Event.le_refl _
  · rw [if_neg (by simp [hr])]
    refine ⟨Or.inl rfl, h, ?_⟩
    intro j hj hje
    rcases hj with hj | hj <;> subst hj
    · exact Event.le_refl _
    · exact absurd hje (by omega)

theorem siftupAux_minHeap (newitem : Event) (endpos : Nat) :
    ∀ (fuel : Nat) (heap : List Event) (pos : Nat), endpos = heap.length →
      pos < endpos → endpos - pos ≤ fuel →
      (∀ i j, childOf i j → j < endpos → i ≠ pos → j ≠ pos →
        Event.le (heap.getD i default) (heap.getD j default)) →
      (∀ i, childOf i pos → ∀ j, childOf pos j → j < endpos →
        Event.le (heap.getD i default) (heap.getD j default)) →
      IsMinHeap (siftupAux endpos 0 newitem fuel heap pos) := by
  intro fuel
  induction fuel with
  | zero => intro heap pos _ hpos hfuel _ _; omega
  | succ fuel ih =>
    intro heap pos hlen hpos hfuel hA hC
    rw [siftupAux]
    by_cases hchild : 2 * pos + 1 < endpos
    · rw [if_pos hchild]
      obtain ⟨hcc, hclt, hcmin⟩ := chooseChild_spec heap endpos pos hchild
      have hposc : pos < chooseChild heap endpos (2 * pos + 1) := childOf_lt hcc
      have hclen : chooseChild heap endpos (2 * pos + 1) < heap.length :=
        hlen ▸ hclt
      have hgd : ∀ k, k ≠ pos →
          (heap.set pos
            (heap.getD (chooseChild heap endpos (2 * pos + 1)) default)).getD
              k default
            = heap.getD k default :=
        fun k hk => getD_set_other _ _ (Ne.symm hk)
      have hgdeq :
          (heap.set pos
            (heap.getD (chooseChild heap endpos (2 * pos + 1)) default)).getD
              pos default
            = heap.getD (chooseChild heap endpos (2 * pos + 1)) default :=
        getD_set_self _ _ _ (hlen ▸ hpos)
      refine ih _ (chooseChild heap endpos (2 * pos + 1))
        (by rw [List.length_set]; exact hlen) hclt (by omega) ?_ ?_
      · intro i j hc hj hic hjc
        by_cases hjp : j = pos
        · subst hjp
          rw [hgd i (by have := childOf_lt hc; omega), hgdeq]
          exact hC i hc _ hcc hclt
        · by_cases hip : i = pos
          · subst hip
            rw [hgdeq, hgd j hjp]
            exact hcmin j hc hj
          · rw [hgd i hip, hgd j hjp]
            exact hA i j hc hj hip hjp
      · intro i hic j hcj hj
        have hipos : i = pos := by
          have h1 := childOf_parent_eq hic
          have h2 := childOf_parent_eq hcc
          omega
        subst hipos
        have hjne : j ≠ i := by
          have := childOf_lt hcj
          have := childOf_lt hcc
          omega
        rw [hgdeq, hgd j hjne]
        refine hA _ j hcj hj ?_ ?_
        · omega
        · have := childOf_lt hcj; omega
    · rw [if_neg hchild]
      unfold siftdown
      rw [getD_set_self _ _ _ (hlen ▸ hpos)]
      refine siftdownAux_minHeap newitem pos (heap.set pos newitem) pos
        le_rfl (by rw [List.length_set]; exact hlen ▸ hpos) ?_ ?_ ?_
      · intro i j hc hj hjp
        rw [List.length_set, ← hlen] at hj
        by_cases hip : i = pos
        · subst hip
          exact absurd hj (by rcases hc with h' | h' <;> omega)
        · rw [getD_set_other _ _ (Ne.symm hip), getD_set_other _ _ (Ne.symm hjp)]
          exact hA i j hc hj hip hjp
      · intro j hc hj
        rw [List.length_set, ← hlen] at hj
        rcases hc with h' | h' <;> omega
      · intro j hc hj _
        rw [List.length_set, ← hlen] at hj
        rcases hc with h' | h' <;> omega

theorem isMinHeap_getD_zero_le (l : List Event) (h : IsMinHeap l) :
    ∀ j, j < l.length → Event.le (l.getD 0 default) (l.getD j default) := by
  intro j
  induction j using Nat.strong_induction_on with
  | _ j ih =>
    intro hj
    cases Nat.eq_zero_or_pos j with
    | inl hj0 => subst hj0; exact Event.le_refl _
    | inr hj0 =>
      have hpar : (j - 1) / 2 < j := by omega
      exact Event.le_trans (ih _ hpar (by omega))
        (h _ j (parent_childOf hj0) hj)

theorem isMinHeap_dropLast (l : List Event) (h : IsMinHeap l) :
    IsMinHeap l.dropLast := by
  intro i j hc hj
  rw [List.length_dropLast] at hj
  have hgd : ∀ k, k < l.length - 1 →
      l.dropLast.getD k default = l.getD k default := by
    intro k hk
    rw [List.getD_eq_getElem _ _ (by simpa using hk),
      List.getD_eq_getElem _ _ (by omega)]
    exact List.getElem_dropLast _ _ _
  rw [hgd i (by have := childOf_lt hc; omega), hgd j hj]
  exact h i j hc (by omega)

theorem heappush_perm (l : List Event) (x : Event) :
    (heappush l x).Perm (x :: l) := by
  unfold heappush siftdown
  have hgd : (l ++ [x]).getD l.length default = x := by
    rw [List.getD_eq_getElem _ _ (by simp)]
    simp
  rw [hgd]
  have hperm := siftdownAux_perm x 0 l.length (l ++ [x]) l.length (by simp)
  have hset : (l ++ [x]).set l.length x = l ++ [x] := by
    rw [List.set_eq_take_cons_drop _ (by simp)]
    simp
  rw [hset] at hperm
  exact hperm.trans (List.perm_append_singleton x l)

theorem heappush_isMinHeap (l : List Event) (x : Event) (h : IsMinHeap l) :
    IsMinHeap (heappush l x) := by
  unfold heappush siftdown
  have hgd : (l ++ [x]).getD l.length default = x := by
    rw [List.getD_eq_getElem _ _ (by simp)]
    simp
  rw [hgd]
  refine siftdownAux_minHeap x l.length (l ++ [x]) l.length le_rfl (by simp)
    ?_ ?_ ?_
  · intro i j hc hj hjne
    simp only [List.length_append, List.length_cons, List.length_nil] at hj
    have hjl : j < l.length := by omega
    have hil : i < l.length := lt_trans (childOf_lt hc) hjl
    have hgd2 : ∀ k, k < l.length →
        (l ++ [x]).getD k default = l.getD k default := by
      intro k hk
      rw [List.getD_eq_getElem _ _ (by simp; omega),
        List.getD_eq_getElem _ _ hk]
      exact List.getElem_append_left _
    rw [hgd2 i hil, hgd2 j hjl]
    exact h i j hc hjl
  · intro j hc hj
    simp only [List.length_append, List.length_cons, List.length_nil] at hj
    rcases hc with h' | h' <;> omega
  · intro j hc hj _
    simp only [List.length_append, List.length_cons, List.length_nil] at hj
    rcases hc with h' | h' <;> omega

theorem heappop_spec (l : List Event) (h : IsMinHeap l) (hne : l ≠ []) :
    ∃ l', heappop l = some (l.getD 0 default, l') ∧
      l.Perm (l.getD 0 default :: l') ∧ IsMinHeap l' := by
  have hsplit : l.dropLast ++ [l.getLast hne] = l :=
    List.dropLast_append_getLast hne
  have hstep : heappop l =
      (if l.dropLast.isEmpty then some (l.getLast hne, l.dropLast)
       else some (l.dropLast.getD 0 default,
         siftup (l.dropLast.set 0 (l.getLast hne)) 0)) := by
    unfold heappop
    rw [List.getLast?_eq_getLast l hne]
  by_cases hrest : l.dropLast.isEmpty
  · rw [hstep, if_pos hrest]
    have hd : l.dropLast = [] := List.isEmpty_iff.mp hrest
    have hg0 : l.getD 0 default = l.getLast hne := by
      have hh : l.getD 0 default
          = (l.dropLast ++ [l.getLast hne]).getD 0 default := by rw [hsplit]
      rw [hh, hd]
      rfl
    refine ⟨[], ?_, ?_, ?_⟩
    · rw [hg0, hd]
    · rw [hg0]
      have hh : (l.dropLast ++ [l.getLast hne]).Perm [l.getLast hne] := by
        rw [hd]
        exact List.Perm.refl _
      rw [hsplit] at hh
      exact hh
    · intro i j _ hj; simp at hj
  · rw [hstep, if_neg hrest]
    have hdne : 0 < l.dropLast.length := by
      cases hd : l.dropLast with
      | nil => rw [hd] at hrest; simp at hrest
      | cons a t => simp [hd]
    have hllen : 0 < l.length := List.length_pos.mpr hne
    have hroot : l.dropLast.getD 0 default = l.getD 0 default := by
      rw [List.getD_eq_getElem _ _ hdne, List.getD_eq_getElem _ _ hllen]
      exact List.getElem_dropLast _ _ _
    have hlen0 : 0 < (l.dropLast.set 0 (l.getLast hne)).length := by
      rw [List.length_set]; exact hdne
    have hget0 : (l.dropLast.set 0 (l.getLast hne)).getD 0 default
        = l.getLast hne := getD_set_self _ _ _ hdne
    have hsiftdef : siftup (l.dropLast.set 0 (l.getLast hne)) 0
        = siftupAux (l.dropLast.set 0 (l.getLast hne)).length 0
            (l.getLast hne) (l.dropLast.set 0 (l.getLast hne)).length
            (l.dropLast.set 0 (l.getLast hne)) 0 := by
      unfold siftup
      rw [hget0]
    refine ⟨siftup (l.dropLast.set 0 (l.getLast hne)) 0, by rw [hroot], ?_, ?_⟩
    · have hperm1 : (siftup (l.dropLast.set 0 (l.getLast hne)) 0).Perm
          (l.dropLast.set 0 (l.getLast hne)) := by
        rw [hsiftdef]
        have := siftupAux_perm (l.dropLast.set 0 (l.getLast hne)).length 0
          (l.getLast hne) (l.dropLast.set 0 (l.getLast hne)).length
          (l.dropLast.set 0 (l.getLast hne)) 0 hlen0 le_rfl
        rw [List.set_set] at this
        exact this
      have hperm2 : (l.dropLast.set 0 (l.getLast hne)).Perm
          (l.getLast hne :: l.dropLast.eraseIdx 0) :=
        set_perm_cons_eraseIdx _ 0 _ hdne
      have hperm3 : l.dropLast.Perm
          (l.dropLast.getD 0 default :: l.dropLast.eraseIdx 0) :=
        perm_getD_cons_eraseIdx _ 0 default hdne
      have hperm4 : l.Perm (l.getLast hne :: l.dropLast) := by
        conv_lhs => rw [← hsplit]
        exact List.perm_append_singleton _ _
      refine hperm4.trans ?_
      refine ((hperm3.cons _).trans (List.Perm.swap _ _ _)).trans ?_
      rw [hroot]
      exact (hperm1.trans hperm2).symm.cons _
    · rw [hsiftdef]
      refine siftupAux_minHeap (l.getLast hne)
        (l.dropLast.set 0 (l.getLast hne)).length
        (l.dropLast.set 0 (l.getLast hne)).length
        (l.dropLast.set 0 (l.getLast hne)) 0 rfl hlen0 le_rfl ?_ ?_
      · intro i j hc hj hi0 hj0
        have hmh := isMinHeap_dropLast l h
        have hgd : ∀ k, k ≠ 0 →
            (l.dropLast.set 0 (l.getLast hne)).getD k default
              = l.dropLast.getD k default :=
          fun k hk => getD_set_other _ _ (Ne.symm hk)
        rw [hgd i hi0, hgd j hj0]
        rw [List.length_set] at hj
        exact hmh i j hc hj
      · intro i hic j _ _
        exact absurd (childOf_pos hic) (lt_irrefl 0)

/-! # Engine-state framing lemmas -/

theorem findSome?_comp_map {α β γ : Type} (l : List α) (f : α → β)
    (g : β → Option γ) :
    (l.map f).findSome? g = l.findSome? fun a => g (f a) := by
  induction l with
  | nil => rfl
  | cons a l ih =>
    simp only [List.map_cons, List.findSome?_cons]
    cases g (f a) <;> simp [ih]

theorem findSome?_congr {α β : Type} (l : List α) (f g : α → Option β)
    (h : ∀ a, f a = g a) : l.findSome? f = l.findSome? g := by
  induction l with
  | nil => rfl
  | cons a l ih => simp only [List.findSome?_cons, h a, ih]

theorem isMinHeap_root_le_mem (l : List Event) (h : IsMinHeap l) (x : Event)
    (hx : x ∈ l) : Event.le (l.getD 0 default) x := by
  obtain ⟨j, hj, rfl⟩ := List.mem_iff_getElem.mp hx
  rw [← List.getD_eq_getElem l default hj]
  exact isMinHeap_getD_zero_le l h j hj

theorem findToolInRequests_mem (tid : Nat × String) (t : ToolInstance) :
    ∀ reqs : List Request,
      (reqs.findSome? fun req =>
        if req.requestId = tid.1 then
          req.toolInstances.find? fun t' => t'.toolId = tid
        else none) = some t →
      ∃ req ∈ reqs, req.requestId = tid.1 ∧ t ∈ req.toolInstances ∧
        t.toolId = tid := by
  intro reqs
  induction reqs with
  | nil => intro h; simp [List.findSome?] at h
  | cons req reqs ih =>
    intro h
    rw [List.findSome?_cons] at h
    by_cases hid : req.requestId = tid.1
    · rw [if_pos hid] at h
      cases hfind : req.toolInstances.find? fun t' => decide (t'.toolId = tid) with
      | none =>
        rw [hfind] at h
        obtain ⟨r, hr, h1, h2, h3⟩ := ih h
        exact ⟨r, List.mem_cons_of_mem _ hr, h1, h2, h3⟩
      | some t' =>
        rw [hfind] at h
        cases h
        refine ⟨req, List.mem_cons_self _ _, hid,
          List.mem_of_find?_eq_some hfind, ?_⟩
        simpa using List.find?_some hfind
    · rw [if_neg hid] at h
      obtain ⟨r, hr, h1, h2, h3⟩ := ih h
      exact ⟨r, List.mem_cons_of_mem _ hr, h1, h2, h3⟩

theorem findToolById_mem {s : SimulationEngine} {tid : Nat × String}
    {t : ToolInstance} (h : s.findToolById tid = some t) :
    ∃ req ∈ s.requests, req.requestId = tid.1 ∧ t ∈ req.toolInstances ∧
      t.toolId = tid :=
  findToolInRequests_mem tid t s.requests h

/-- `_find_tool_by_id` ignores every request field but `requestId` and
`toolInstances`. -/
theorem findToolById_mapRequests (s : SimulationEngine)
    (F : Request → Request)
    (hF : ∀ req, (F req).requestId = req.requestId ∧
      (F req).toolInstances = req.toolInstances) (tid : Nat × String) :
    SimulationEngine.findToolById { s with requests := s.requests.map F } tid
      = s.findToolById tid := by
  show (s.requests.map F).findSome? _ = _
  rw [findSome?_comp_map]
  refine findSome?_congr _ _ _ fun req => ?_
  rw [(hF req).1, (hF req).2]

/-- `_find_tool_by_id` at a different identifier is untouched by an
in-place update of tool `tid`, provided instances carry their owning
request's id. -/
theorem find?_toolId_map_update_ne (tid tid' : Nat × String) (rid : Nat)
    (f : ToolInstance → ToolInstance)
    (hf : ∀ t, (f t).requestId = t.requestId ∧ (f t).toolName = t.toolName)
    (hrid : rid = tid.1) (hne : tid' ≠ tid) :
    ∀ ts : List ToolInstance, (∀ t ∈ ts, t.requestId = rid) →
      ((ts.map fun t => if t.toolName = tid.2 then f t else t).find?
          fun t => t.toolId = tid')
        = ts.find? fun t => t.toolId = tid' := by
  intro ts
  induction ts with
  | nil => intro _; rfl
  | cons t ts iht =>
    intro hwf
    have hwft : t.requestId = rid := hwf t (List.mem_cons_self _ _)
    have ihts := iht fun t' ht' => hwf t' (List.mem_cons_of_mem _ ht')
    by_cases hname : t.toolName = tid.2
    · have htid : t.toolId ≠ tid' := by
        intro hh
        apply hne
        have h2 : tid' = (t.requestId, t.toolName) := hh.symm
        rw [h2, hwft, hrid, hname]
      have hftid : (f t).toolId ≠ tid' := by
        intro hh
        apply htid
        rw [← hh]
        simp [ToolInstance.toolId, (hf t).1, (hf t).2]
      rw [List.map_cons, if_pos hname,
        List.find?_cons_of_neg _ (by simpa using hftid),
        List.find?_cons_of_neg _ (by simpa using htid), ihts]
    · rw [List.map_cons, if_neg hname]
      cases hfc : (decide (t.toolId = tid') : Bool) with
      | true => simp [List.find?_cons, hfc]
      | false => simpa [List.find?_cons, hfc] using ihts

theorem findToolById_updateTool_ne (s : SimulationEngine)
    (tid tid' : Nat × String) (f : ToolInstance → ToolInstance)
    (hf : ∀ t, (f t).requestId = t.requestId ∧ (f t).toolName = t.toolName)
    (hwf : ∀ req ∈ s.requests, ∀ t ∈ req.toolInstances,
      t.requestId = req.requestId)
    (hne : tid' ≠ tid) :
    SimulationEngine.findToolById
        { s with requests := updateTool s.requests tid f } tid'
      = s.findToolById tid' := by
  show (updateTool s.requests tid f).findSome? _ = _
  unfold updateTool
  rw [findSome?_comp_map]
  unfold SimulationEngine.findToolById
  generalize hreqs : s.requests = reqs at hwf ⊢
  clear hreqs
  induction reqs with
  | nil => rfl
  | cons req reqs ih =>
    have hwfreq := hwf req (List.mem_cons_self _ _)
    have ihh := ih fun r hr => hwf r (List.mem_cons_of_mem _ hr)
    simp only [List.findSome?_cons]
    by_cases hr : req.requestId = tid.1
    · simp only [if_pos hr]
      by_cases hr' : req.requestId = tid'.1
      · simp only [if_pos hr']
        rw [find?_toolId_map_update_ne tid tid' req.requestId f hf hr hne
          req.toolInstances hwfreq]
        cases req.toolInstances.find? fun t => decide (t.toolId = tid') with
        | none => exact ihh
        | some t' => rfl
      · simp only [if_neg hr']
        exact ihh
    · simp only [if_neg hr]
      by_cases hr' : req.requestId = tid'.1
      · simp only [if_pos hr']
        cases req.toolInstances.find? fun t => decide (t.toolId = tid') with
        | none => exact ihh
        | some t' => rfl
      · simp only [if_neg hr']
        exact ihh

theorem dictInsertRequest_fresh (reqs : List Request) (r : Request)
    (h : ∀ q ∈ reqs, q.requestId ≠ r.requestId) :
    dictInsertRequest reqs r = reqs ++ [r] := by
  unfold dictInsertRequest
  rw [if_neg]
  simp only [List.any_eq_true, beq_iff_eq, not_exists, not_and]
  intro q hq
  simpa using h q hq

theorem PredsDone.mono {req : Request} {name : String} {b b' : ℚ}
    (hb : b ≤ b') (h : PredsDone req name b) : PredsDone req name b' := by
  intro e he hname tp htp hp
  obtain ⟨h1, f, h2, h3⟩ := h e he hname tp htp hp
  exact ⟨h1, f, h2, h3.trans hb⟩

/-- Transfer of `PredsDone` along an in-place update of the instance list:
any update that keeps names, and keeps the status and finish time of every
COMPLETED instance, preserves the property. -/
theorem predsDone_map {req : Request} {name : String} {b : ℚ}
    (u : ToolInstance → ToolInstance)
    (hname : ∀ t, (u t).toolName = t.toolName)
    (hkeep : ∀ t ∈ req.toolInstances, t.status = .completed →
      (u t).status = .completed ∧ (u t).finishTime = t.finishTime)
    (h : PredsDone req name b) :
    PredsDone { req with toolInstances := req.toolInstances.map u } name b := by
  intro e he hename tp' htp' hp'
  simp only [List.mem_map] at htp'
  obtain ⟨tp, htp, rfl⟩ := htp'
  rw [hname] at hp'
  obtain ⟨h1, f, h2, h3⟩ := h e he hename tp htp hp'
  obtain ⟨hk1, hk2⟩ := hkeep tp htp h1
  exact ⟨hk1, f, hk2 ▸ h2, h3⟩

/-- Transfer of `TargetPending` along an update that keeps names and keeps
instances named `name` pending. -/
theorem targetPending_map {req : Request} {name : String}
    (u : ToolInstance → ToolInstance)
    (hname : ∀ t, (u t).toolName = t.toolName)
    (hpend : ∀ t ∈ req.toolInstances, t.toolName = name →
      t.status = .pending → (u t).status = .pending)
    (h : TargetPending req name) :
    TargetPending { req with toolInstances := req.toolInstances.map u }
      name := by
  intro t' ht' hn'
  simp only [List.mem_map] at ht'
  obtain ⟨t, ht, rfl⟩ := ht'
  rw [hname] at hn'
  exact hpend t ht hn' (h t ht hn')

theorem distinctToolTargets_symm :
    ∀ {e1 e2 : Event}, DistinctToolTargets e1 e2 → DistinctToolTargets e2 e1 :=
  fun h tid1 tid2 h1 h2 => (h tid2 tid1 h2 h1).symm

theorem distinctArrivalIds_symm :
    ∀ {e1 e2 : Event}, DistinctArrivalIds e1 e2 → DistinctArrivalIds e2 e1 :=
  fun h r1 r2 h1 h2 => (h r2 r1 h2 h1).symm

theorem mem_heappush {l : List Event} {x e : Event} (h : e ∈ heappush l x) :
    e = x ∨ e ∈ l := by
  have := (heappush_perm l x).mem_iff.mp h
  simpa using this

/-- `schedule_event` with a TOOL_START payload preserves the run invariant
when the new event is at or after the current time, its target's
predecessors are completed by then, its target is pending, and no queued
event already targets the same tool. -/
theorem EngineInv.schedule_toolStart {s : SimulationEngine}
    (inv : EngineInv s) (tid : Nat × String) (ts : ℚ) (pr : ℤ)
    (hts : s.currentTime ≤ ts)
    (hex : ∃ req ∈ s.requests, req.requestId = tid.1)
    (hall : ∀ req ∈ s.requests, req.requestId = tid.1 →
      PredsDone req tid.2 ts ∧ TargetPending req tid.2)
    (hnew : ∀ e ∈ s.eventQueue.heap, ∀ tid', e.payload = .toolStart tid' →
      tid' ≠ tid) :
    EngineInv (s.scheduleEvent
      { timestamp := ts, priority := pr, payload := .toolStart tid }) := by
  set ev : Event := { timestamp := ts, priority := pr, payload := .toolStart tid }
    with hev
  have hmem : ∀ e ∈ (s.scheduleEvent ev).eventQueue.heap, e = ev ∨
      e ∈ s.eventQueue.heap := fun e he => mem_heappush he
  refine ⟨inv.reqIds, inv.wf, ?_, ?_, ?_, ?_, ?_, ?_, inv.started, inv.done,
    inv.act⟩
  · intro e he tid' hp
    rcases hmem e he with rfl | he'
    · cases hp
      exact ⟨hex, fun req hreq hid => hall req hreq hid⟩
    · exact inv.qStart e he' tid' hp
  · refine ((heappush_perm _ _).pairwise_iff
      (fun h => distinctToolTargets_symm h)).mpr ?_
    refine List.Pairwise.cons ?_ inv.qStartDistinct
    intro e' he' tid1 tid2 h1 h2
    cases h1
    exact (hnew e' he' tid2 h2).symm
  · intro e he r hp
    rcases hmem e he with rfl | he'
    · cases hp
    · exact inv.qArrival e he' r hp
  · refine ((heappush_perm _ _).pairwise_iff
      (fun h => distinctArrivalIds_symm h)).mpr ?_
    refine List.Pairwise.cons ?_ inv.qArrivalDistinct
    intro e' _ r1 r2 h1 _
    cases h1
  · intro e he
    rcases hmem e he with rfl | he'
    · exact hts
    · exact inv.time e he'
  · exact heappush_isMinHeap _ _ inv.heap

/-- `schedule_event` with a REQUEST_ARRIVAL payload preserves the run
invariant when the delivered request is fresh, well-formed and carries an
identifier unseen both in the store and among queued arrivals. -/
theorem EngineInv.schedule_arrival {s : SimulationEngine}
    (inv : EngineInv s) (req : Request) (ts : ℚ) (pr : ℤ)
    (hts : s.currentTime ≤ ts)
    (hwfr : WFRequest req) (hfr : FreshRequest req)
    (hids : ∀ q ∈ s.requests, q.requestId ≠ req.requestId)
    (hqids : ∀ e ∈ s.eventQueue.heap, ∀ r', e.payload = .requestArrival r' →
      r'.requestId ≠ req.requestId) :
    EngineInv (s.scheduleEvent
      { timestamp := ts, priority := pr, payload := .requestArrival req }) := by
  set ev : Event :=
    { timestamp := ts, priority := pr, payload := .requestArrival req }
    with hev
  have hmem : ∀ e ∈ (s.scheduleEvent ev).eventQueue.heap, e = ev ∨
      e ∈ s.eventQueue.heap := fun e he => mem_heappush he
  refine ⟨inv.reqIds, inv.wf, ?_, ?_, ?_, ?_, ?_, ?_, inv.started, inv.done,
    inv.act⟩
  · intro e he tid' hp
    rcases hmem e he with rfl | he'
    · cases hp
    · exact inv.qStart e he' tid' hp
  · refine ((heappush_perm _ _).pairwise_iff
      (fun h => distinctToolTargets_symm h)).mpr ?_
    refine List.Pairwise.cons ?_ inv.qStartDistinct
    intro e' _ tid1 tid2 h1 _
    cases h1
  · intro e he r hp
    rcases hmem e he with rfl | he'
    · cases hp
      exact ⟨hwfr, hfr, hids⟩
    · exact inv.qArrival e he' r hp
  · refine ((heappush_perm _ _).pairwise_iff
      (fun h => distinctArrivalIds_symm h)).mpr ?_
    refine List.Pairwise.cons ?_ inv.qArrivalDistinct
    intro e' he' r1 r2 h1 h2
    cases h1
    exact fun hh => hqids e' he' r2 h2 hh.symm
  · intro e he
    rcases hmem e he with rfl | he'
    · exact hts
    · exact inv.time e he'
  · exact heappush_isMinHeap _ _ inv.heap

/-- Scheduling start events for a list of distinct no-predecessor pending
tools of a stored request preserves the run invariant. -/
theorem scheduleRoots_inv (rid : Nat) :
    ∀ (roots : List String) (s : SimulationEngine), EngineInv s →
      roots.Nodup →
      (∃ req ∈ s.requests, req.requestId = rid) →
      (∀ req ∈ s.requests, req.requestId = rid → ∀ r ∈ roots,
        PredsDone req r s.currentTime ∧ TargetPending req r) →
      (∀ e ∈ s.eventQueue.heap, ∀ tid', e.payload = .toolStart tid' →
        tid'.1 = rid → tid'.2 ∉ roots) →
      EngineInv (roots.foldl
        (fun s toolName =>
          s.scheduleEvent { timestamp := s.currentTime, priority := 0,
                            payload := .toolStart (rid, toolName) }) s) := by
  intro roots
  induction roots with
  | nil => intro s inv _ _ _ _; exact inv
  | cons r rs ih =>
    intro s inv hnd hex hprops hfresh
    rw [List.foldl_cons]
    have hinv1 : EngineInv (s.scheduleEvent
        { timestamp := s.currentTime, priority := 0,
          payload := .toolStart (rid, r) }) := by
      refine inv.schedule_toolStart (rid, r) s.currentTime 0 le_rfl hex
        (fun req hreq hid => hprops req hreq hid r (List.mem_cons_self _ _))
        ?_
      intro e he tid' hp htid
      exact hfresh e he tid' hp (htid ▸ rfl) (htid ▸ List.mem_cons_self _ _)
    refine ih _ hinv1 (List.Nodup.of_cons hnd) hex
      (fun req hreq hid r' hr' =>
        hprops req hreq hid r' (List.mem_cons_of_mem _ hr')) ?_
    intro e he tid' hp htid
    rcases mem_heappush he with rfl | he'
    · cases hp
      exact fun hmem => (List.nodup_cons.mp hnd).1 hmem
    · intro hmem
      exact hfresh e he' tid' hp htid (List.mem_cons_of_mem _ hmem)

/-- `_handle_request_arrival` preserves the run invariant for a fresh,
well-formed request. -/
theorem EngineInv.handleRequestArrival {s : SimulationEngine}
    (inv : EngineInv s) (req : Request)
    (hwfr : WFRequest req) (hfr : FreshRequest req)
    (hids : ∀ q ∈ s.requests, q.requestId ≠ req.requestId)
    (hqarr : ∀ e ∈ s.eventQueue.heap, ∀ r',
      e.payload = .requestArrival r' → r'.requestId ≠ req.requestId) :
    EngineInv (s.handleRequestArrival req) := by
  have hqfresh : ∀ e ∈ s.eventQueue.heap, ∀ tid',
      e.payload = .toolStart tid' → tid'.1 ≠ req.requestId := by
    intro e he tid' hp
    obtain ⟨⟨req₀, hreq₀, hid₀⟩, _⟩ := inv.qStart e he tid' hp
    exact hid₀ ▸ hids req₀ hreq₀
  unfold SimulationEngine.handleRequestArrival
  rw [dictInsertRequest_fresh _ _ hids]
  have hinv2 : EngineInv { s with requests := s.requests ++ [req] } := by
    refine ⟨?_, ?_, ?_, inv.qStartDistinct, ?_, inv.qArrivalDistinct,
      inv.time, inv.heap, ?_, ?_, ?_⟩
    · rw [List.map_append, List.nodup_append]
      refine ⟨inv.reqIds, List.nodup_singleton _, ?_⟩
      intro a ha hb
      simp only [List.map_cons, List.map_nil, List.mem_singleton] at hb
      obtain ⟨q, hq, rfl⟩ := List.mem_map.mp ha
      exact hids q hq (hb ▸ rfl)
    · intro r hr
      rcases List.mem_append.mp hr with hr | hr
      · exact inv.wf r hr
      · rw [List.mem_singleton.mp hr]
        exact hwfr
    · intro e he tid' hp
      obtain ⟨⟨req₀, hreq₀, hid₀⟩, hall⟩ := inv.qStart e he tid' hp
      refine ⟨⟨req₀, List.mem_append_left _ hreq₀, hid₀⟩, ?_⟩
      intro r hr hid
      rcases List.mem_append.mp hr with hr | hr
      · exact hall r hr hid
      · rw [List.mem_singleton.mp hr] at hid
        exact absurd hid.symm (hqfresh e he tid' hp)
    · intro e he r' hp
      obtain ⟨h1, h2, h3⟩ := inv.qArrival e he r' hp
      refine ⟨h1, h2, ?_⟩
      intro q hq
      rcases List.mem_append.mp hq with hq | hq
      · exact h3 q hq
      · rw [List.mem_singleton.mp hq]
        exact fun hh => hqarr e he r' hp hh.symm
    · intro r hr t ht hst
      rcases List.mem_append.mp hr with hr | hr
      · exact inv.started r hr t ht hst
      · rw [List.mem_singleton.mp hr] at ht
        exact absurd (hfr t ht) hst
    · intro r hr t ht hst
      rcases List.mem_append.mp hr with hr | hr
      · exact inv.done r hr t ht hst
      · rw [List.mem_singleton.mp hr] at ht
        rw [hfr t ht] at hst
        cases hst
    · refine ⟨inv.act.1, ?_⟩
      intro tid htid
      obtain ⟨t, hfind, hrun⟩ := inv.act.2 tid htid
      refine ⟨t, ?_, hrun⟩
      show (s.requests ++ [req]).findSome? _ = some t
      rw [List.findSome?_append]
      have hfind' : s.requests.findSome?
          (fun r => if r.requestId = tid.1 then
            r.toolInstances.find? fun t' => t'.toolId = tid
          else none) = some t := hfind
      rw [hfind']
      rfl
  refine scheduleRoots_inv req.requestId req.getRootTools _ hinv2 ?_
    ⟨req, List.mem_append_right _ (List.mem_singleton_self _), rfl⟩ ?_ ?_
  · exact List.Nodup.filter _ hwfr.2.2.1
  · intro r hr hid root hroot
    have hreq : r = req := by
      rcases List.mem_append.mp hr with hmem | hmem
      · exact absurd hid (hids r hmem)
      · exact List.mem_singleton.mp hmem
    subst hreq
    constructor
    · intro e he hename tp _ _
      have hfilter := (List.mem_filter.mp hroot).2
      have hall := List.all_eq_true.mp hfilter e he
      simp only [decide_eq_true_eq] at hall
      exact absurd hename hall
    · intro t ht _
      exact hfr t ht
  · intro e he tid' hp htid
    exact absurd htid (hqfresh e he tid' hp)

theorem find?_toolId_map_update (tid : Nat × String)
    (f : ToolInstance → ToolInstance)
    (hf : ∀ t, (f t).requestId = t.requestId ∧ (f t).toolName = t.toolName)
    (ts : List ToolInstance) :
    ((ts.map fun t => if t.toolName = tid.2 then f t else t).find?
        fun t => t.toolId = tid)
      = Option.map f (ts.find? fun t => t.toolId = tid) := by
  induction ts with
  | nil => rfl
  | cons t ts ih =>
    have hfid : ∀ u : ToolInstance, (f u).toolId = u.toolId := by
      intro u
      have h := hf u
      simp [ToolInstance.toolId, h.1, h.2]
    by_cases hname : t.toolName = tid.2
    · by_cases hid : t.toolId = tid
      · have h1 : (f t).toolId = tid := by rw [hfid, hid]
        simp [List.map_cons, hname, List.find?_cons_of_pos, h1, hid]
      · have h1 : (f t).toolId ≠ tid := by rw [hfid]; exact hid
        rw [List.map_cons, if_pos hname,
          List.find?_cons_of_neg _ (by simpa using h1),
          List.find?_cons_of_neg _ (by simpa using hid), ih]
    · have hid : t.toolId ≠ tid := by
        simp only [ToolInstance.toolId]
        intro h
        exact hname (congrArg Prod.snd h)
      rw [List.map_cons, if_neg hname,
        List.find?_cons_of_neg _ (by simpa using hid),
        List.find?_cons_of_neg _ (by simpa using hid), ih]

/-- `_find_tool_by_id` after an in-place mutation of the tool `tid`. -/
theorem findToolById_updateTool (s : SimulationEngine) (tid : Nat × String)
    (f : ToolInstance → ToolInstance)
    (hf : ∀ t, (f t).requestId = t.requestId ∧ (f t).toolName = t.toolName) :
    SimulationEngine.findToolById
        { s with requests := updateTool s.requests tid f } tid
      = Option.map f (s.findToolById tid) := by
  show (updateTool s.requests tid f).findSome? _ = _
  unfold updateTool
  rw [findSome?_comp_map]
  unfold SimulationEngine.findToolById
  induction s.requests with
  | nil => rfl
  | cons req reqs ih =>
    simp only [List.findSome?_cons]
    by_cases hr : req.requestId = tid.1
    · simp only [hr, if_pos, if_true]
      rw [find?_toolId_map_update tid f hf]
      cases req.toolInstances.find? fun t => t.toolId = tid <;> simp [ih]
    · simp only [if_neg hr]
      exact ih

/-- `_find_tool_by_id` is unchanged by the request-start-time fixup at the
end of `_handle_tool_start`. -/

theorem PredsDone_of_eq_fields {req req' : Request}
    (hE : req'.dagEdges = req.dagEdges)
    (hT : req'.toolInstances = req.toolInstances) {n : String} {b : ℚ}
    (h : PredsDone req n b) : PredsDone req' n b := by
  intro e he hn tp htp hp
  rw [hE] at he
  rw [hT] at htp
  exact h e he hn tp htp hp

theorem TargetPending_of_eq_fields {req req' : Request}
    (hT : req'.toolInstances = req.toolInstances) {n : String}
    (h : TargetPending req n) : TargetPending req' n := by
  intro t ht hn
  rw [hT] at ht
  exact h t ht hn

/-- `_handle_tool_start` preserves the run invariant when the processed
event's target has all predecessors completed by now, is pending, and is
targeted by no other queued event. -/
theorem EngineInv.handleToolStart {s : SimulationEngine} (inv : EngineInv s)
    (tid : Nat × String) (s' : SimulationEngine)
    (hrun : s.handleToolStart tid = .ok s')
    (hallE : ∀ req ∈ s.requests, req.requestId = tid.1 →
      PredsDone req tid.2 s.currentTime ∧ TargetPending req tid.2)
    (hnotar : ∀ e ∈ s.eventQueue.heap, ∀ tid',
      e.payload = .toolStart tid' → tid' ≠ tid) :
    EngineInv s' := by
  unfold SimulationEngine.handleToolStart at hrun
  cases hfind : s.findToolById tid with
  | none => rw [hfind] at hrun; cases hrun
  | some t =>
  rw [hfind] at hrun
  cases hrun
  obtain ⟨req₀, hreq₀, hid₀, ht₀, htid₀⟩ := findToolById_mem hfind
  have htname : t.toolName = tid.2 := congrArg Prod.snd htid₀
  have htpending : t.status = .pending :=
    (hallE req₀ hreq₀ hid₀).2 t ht₀ htname
  have htnotactive : tid ∉ s.active := by
    intro hmem
    obtain ⟨t', hfind', hrun'⟩ := inv.act.2 tid hmem
    rw [hfind] at hfind'
    cases hfind'
    rw [htpending] at hrun'
    cases hrun'
  have hcontains : s.active.contains tid = false := by
    simpa using htnotactive
  rw [hcontains]
  simp only [Bool.false_eq_true, if_false]
  -- notation for the two request transformations
  set f : ToolInstance → ToolInstance := fun t =>
    ({ t with status := .running, startTime := some s.currentTime }).initWork
    with hf
  have hfskel : ∀ t', (f t').requestId = t'.requestId ∧
      (f t').toolName = t'.toolName := fun t' => ⟨rfl, rfl⟩
  set u : ToolInstance → ToolInstance := fun t' =>
    if t'.toolName = tid.2 then f t' else t' with hu
  have huname : ∀ t', (u t').toolName = t'.toolName := by
    intro t'
    simp only [hu]
    by_cases hn : t'.toolName = tid.2
    · rw [if_pos hn]; exact (hfskel t').2
    · rw [if_neg hn]
  have hurid : ∀ t', (u t').requestId = t'.requestId := by
    intro t'
    simp only [hu]
    by_cases hn : t'.toolName = tid.2
    · rw [if_pos hn]; exact (hfskel t').1
    · rw [if_neg hn]
  set F : Request → Request := fun req =>
    if req.requestId = tid.1 ∧ req.startTime = none then
      { req with startTime := some s.currentTime }
    else req with hF
  have hFid : ∀ req, (F req).requestId = req.requestId := by
    intro req
    simp only [hF]
    by_cases hc : req.requestId = tid.1 ∧ req.startTime = none
    · rw [if_pos hc]
    · rw [if_neg hc]
  have hFtools : ∀ req, (F req).toolInstances = req.toolInstances := by
    intro req
    simp only [hF]
    by_cases hc : req.requestId = tid.1 ∧ req.startTime = none
    · rw [if_pos hc]
    · rw [if_neg hc]
  have hFedges : ∀ req, (F req).dagEdges = req.dagEdges := by
    intro req
    simp only [hF]
    by_cases hc : req.requestId = tid.1 ∧ req.startTime = none
    · rw [if_pos hc]
    · rw [if_neg hc]
  have hFnodes : ∀ req, (F req).dagNodes = req.dagNodes := by
    intro req
    simp only [hF]
    by_cases hc : req.requestId = tid.1 ∧ req.startTime = none
    · rw [if_pos hc]
    · rw [if_neg hc]
  set U : Request → Request := fun req =>
    if req.requestId = tid.1 then
      { req with toolInstances := req.toolInstances.map u }
    else req with hU
  have hUid : ∀ req, (U req).requestId = req.requestId := by
    intro req
    simp only [hU]
    by_cases hc : req.requestId = tid.1
    · rw [if_pos hc]
    · rw [if_neg hc]
  have hUedges : ∀ req, (U req).dagEdges = req.dagEdges := by
    intro req
    simp only [hU]
    by_cases hc : req.requestId = tid.1
    · rw [if_pos hc]
    · rw [if_neg hc]
  have hUnodes : ∀ req, (U req).dagNodes = req.dagNodes := by
    intro req
    simp only [hU]
    by_cases hc : req.requestId = tid.1
    · rw [if_pos hc]
    · rw [if_neg hc]
  have hUT : updateTool s.requests tid f = s.requests.map U := rfl
  -- a generic transfer of PredsDone/TargetPending through F ∘ U
  have hPD : ∀ req ∈ s.requests, ∀ n b, (req.requestId = tid.1 →
        TargetPending req tid.2) → PredsDone req n b →
      PredsDone (F (U req)) n b := by
    intro req hreq n b htar h
    refine PredsDone_of_eq_fields (hFedges _) (hFtools _) ?_
    simp only [hU]
    by_cases hc : req.requestId = tid.1
    · rw [if_pos hc]
      refine predsDone_map u huname ?_ h
      intro t' ht' hcomp
      simp only [hu]
      by_cases hn : t'.toolName = tid.2
      · rw [(htar hc) t' ht' hn] at hcomp
        cases hcomp
      · rw [if_neg hn]
        exact ⟨hcomp, rfl⟩
    · rw [if_neg hc]
      exact h
  refine ⟨?_, ?_, ?_, inv.qStartDistinct, ?_, inv.qArrivalDistinct, inv.time,
    inv.heap, ?_, ?_, ?_⟩
  · -- request ids unchanged
    have hmapid : ((updateTool s.requests tid f).map F).map Request.requestId
        = s.requests.map Request.requestId := by
      rw [hUT]
      rw [List.map_map, List.map_map]
      refine List.map_congr_left fun req _ => ?_
      show (F (U req)).requestId = req.requestId
      rw [hFid, hUid]
    rw [hmapid]
    exact inv.reqIds
  · -- well-formedness of stored requests
    intro req' hreq'
    obtain ⟨req, hreq, rfl⟩ := by
      simpa only [hUT, List.map_map, List.mem_map, Function.comp] using hreq'
    obtain ⟨w1, w2, w3, w4, w5⟩ := inv.wf req hreq
    refine ⟨?_, ?_, ?_, ?_, ?_⟩
    · rw [hFtools]
      simp only [hU]
      by_cases hc : req.requestId = tid.1
      · rw [if_pos hc]
        show ((req.toolInstances.map u).map ToolInstance.toolName).Nodup
        rw [List.map_map]
        have : (ToolInstance.toolName ∘ u) = ToolInstance.toolName :=
          funext fun t' => huname t'
        rw [this]
        exact w1
      · rw [if_neg hc]
        exact w1
    · intro t' ht'
      rw [hFtools] at ht'
      rw [hFid]
      simp only [hU]
      by_cases hc : req.requestId = tid.1
      · simp only [hU] at ht'
        rw [if_pos hc] at ht'
        simp only [List.mem_map] at ht'
        obtain ⟨t₁, ht₁, rfl⟩ := ht'
        rw [if_pos hc]
        show (u t₁).requestId = req.requestId
        rw [hurid]
        exact w2 t₁ ht₁
      · simp only [hU] at ht'
        rw [if_neg hc] at ht'
        rw [if_neg hc]
        exact w2 t' ht'
    · rw [hFnodes, hUnodes]; exact w3
    · rw [hFedges, hUedges]; exact w4
    · rw [hFedges, hUedges]; exact w5
  · -- queued TOOL_START events
    intro e he tid' hp
    obtain ⟨⟨req₁, hreq₁, hid₁⟩, hall₁⟩ := inv.qStart e he tid' hp
    have htid'ne : tid' ≠ tid := hnotar e he tid' hp
    constructor
    · refine ⟨F (U req₁), ?_, ?_⟩
      · show F (U req₁) ∈ (updateTool s.requests tid f).map F
        rw [hUT]
        rw [List.map_map]
        exact List.mem_map.mpr ⟨req₁, hreq₁, rfl⟩
      · rw [hFid, hUid]; exact hid₁
    · intro req' hreq' hid'
      obtain ⟨req, hreq, rfl⟩ := by
        simpa only [hUT, List.map_map, List.mem_map, Function.comp] using hreq'
      rw [hFid, hUid] at hid'
      obtain ⟨hpd, htp⟩ := hall₁ req hreq hid'
      refine ⟨hPD req hreq _ _ (fun hc => (hallE req hreq hc).2) hpd, ?_⟩
      refine TargetPending_of_eq_fields (hFtools _) ?_
      simp only [hU]
      by_cases hc : req.requestId = tid.1
      · rw [if_pos hc]
        refine targetPending_map u huname ?_ htp
        intro t' ht' hn' hpend'
        simp only [hu]
        by_cases hn : t'.toolName = tid.2
        · exfalso
          apply htid'ne
          have h1 : tid'.2 = tid.2 := hn' ▸ hn
          have h2 : tid'.1 = tid.1 := hid' ▸ hc
          exact Prod.ext h2 h1
        · rw [if_neg hn]
          exact hpend'
      · rw [if_neg hc]
        exact htp
  · -- queued arrivals
    intro e he r' hp
    obtain ⟨h1, h2, h3⟩ := inv.qArrival e he r' hp
    refine ⟨h1, h2, ?_⟩
    intro q hq
    obtain ⟨req, hreq, rfl⟩ := by
      simpa only [hUT, List.map_map, List.mem_map, Function.comp] using hq
    rw [hFid, hUid]
    exact h3 req hreq
  · -- started tools
    intro req' hreq' t' ht' hst'
    obtain ⟨req, hreq, rfl⟩ := by
      simpa only [hUT, List.map_map, List.mem_map, Function.comp] using hreq'
    rw [hFtools] at ht'
    by_cases hc : req.requestId = tid.1
    · simp only [hU] at ht'
      rw [if_pos hc] at ht'
      simp only [List.mem_map] at ht'
      obtain ⟨t₁, ht₁, rfl⟩ := ht'
      by_cases hn : t₁.toolName = tid.2
      · -- the freshly started tool
        have hut : u t₁ = f t₁ := by
          simp only [hu]
          exact if_pos hn
        refine ⟨s.currentTime, ?_, ?_⟩
        · rw [hut]; rfl
        · have hname' : (u t₁).toolName = tid.2 := (huname t₁).trans hn
          rw [hname']
          exact hPD req hreq _ _ (fun hcc => (hallE req hreq hcc).2)
            (hallE req hreq hc).1
      · have hut : u t₁ = t₁ := by
          simp only [hu]
          exact if_neg hn
        rw [hut] at hst' ⊢
        obtain ⟨st, hst, hpd⟩ := inv.started req hreq t₁ ht₁ hst'
        exact ⟨st, hst,
          hPD req hreq _ _ (fun hcc => (hallE req hreq hcc).2) hpd⟩
    · simp only [hU] at ht'
      rw [if_neg hc] at ht'
      obtain ⟨st, hst, hpd⟩ := inv.started req hreq t' ht' hst'
      exact ⟨st, hst,
        hPD req hreq _ _ (fun hcc => (hallE req hreq hcc).2) hpd⟩
  · -- completed tools
    intro req' hreq' t' ht' hst'
    obtain ⟨req, hreq, rfl⟩ := by
      simpa only [hUT, List.map_map, List.mem_map, Function.comp] using hreq'
    rw [hFtools] at ht'
    by_cases hc : req.requestId = tid.1
    · simp only [hU] at ht'
      rw [if_pos hc] at ht'
      simp only [List.mem_map] at ht'
      obtain ⟨t₁, ht₁, rfl⟩ := ht'
      by_cases hn : t₁.toolName = tid.2
      · have hut : u t₁ = f t₁ := by
          simp only [hu]
          exact if_pos hn
        rw [hut] at hst'
        cases hst'
      · have hut : u t₁ = t₁ := by
          simp only [hu]
          exact if_neg hn
        rw [hut] at hst' ⊢
        exact inv.done req hreq t₁ ht₁ hst'
    · simp only [hU] at ht'
      rw [if_neg hc] at ht'
      exact inv.done req hreq t' ht' hst'
  · -- active set
    have hwfid : ∀ r ∈ s.requests, ∀ t' ∈ r.toolInstances,
        t'.requestId = r.requestId := fun r hr => (inv.wf r hr).2.1
    constructor
    · rw [List.nodup_append]
      exact ⟨inv.act.1, List.nodup_singleton _,
        fun a ha hb => htnotactive ((List.mem_singleton.mp hb) ▸ ha)⟩
    · intro tid' htid'
      rcases List.mem_append.mp htid' with hmem | hmem
      · have hne : tid' ≠ tid := fun hh => htnotactive (hh ▸ hmem)
        obtain ⟨t'', hfind'', hrun''⟩ := inv.act.2 tid' hmem
        refine ⟨t'', ?_, hrun''⟩
        show SimulationEngine.findToolById
          { s with requests := (updateTool s.requests tid f).map F } tid'
            = some t''
        have hstep1 : SimulationEngine.findToolById
            { s with requests := (updateTool s.requests tid f).map F } tid'
              = SimulationEngine.findToolById
                { s with requests := updateTool s.requests tid f } tid' := by
          have := findToolById_mapRequests
            { s with requests := updateTool s.requests tid f } F
            (fun req => ⟨hFid req, hFtools req⟩) tid'
          exact this
        rw [hstep1, findToolById_updateTool_ne s tid tid' f hfskel hwfid hne]
        exact hfind''
      · rw [List.mem_singleton.mp hmem]
        refine ⟨f t, ?_, ?_⟩
        · show SimulationEngine.findToolById
            { s with requests := (updateTool s.requests tid f).map F } tid
              = some (f t)
          have hstep1 := findToolById_mapRequests
            { s with requests := updateTool s.requests tid f } F
            (fun req => ⟨hFid req, hFtools req⟩) tid
          rw [hstep1, findToolById_updateTool s tid f hfskel, hfind]
          rfl
        · rfl

/-! # Preservation of the run invariant by the remaining handlers -/

theorem nodup_map_inj {α β : Type} {f : α → β} :
    ∀ {l : List α}, (l.map f).Nodup → ∀ {a b : α}, a ∈ l → b ∈ l →
      f a = f b → a = b := by
  intro l
  induction l with
  | nil => intro _ a b ha _ _; cases ha
  | cons x l ih =>
    intro hnd a b ha hb hf
    rw [List.map_cons, List.nodup_cons] at hnd
    rcases List.mem_cons.mp ha with rfl | ha'
    · rcases List.mem_cons.mp hb with rfl | hb'
      · rfl
      · exfalso; apply hnd.1; rw [hf]; exact List.mem_map.mpr ⟨b, hb', rfl⟩
    · rcases List.mem_cons.mp hb with rfl | hb'
      · exfalso; apply hnd.1; rw [← hf]
        exact List.mem_map.mpr ⟨a, ha', rfl⟩
      · exact ih hnd.2 ha' hb' hf

/-- A guarded fold whose guard ignores the accumulator folds over the
filtered list. -/
theorem foldl_guard_filter {α β : Type} (c : α → Bool) (g : β → α → β) :
    ∀ (l : List α) (init : β),
      l.foldl (fun s x => if c x then g s x else s) init
        = (l.filter c).foldl g init := by
  intro l
  induction l with
  | nil => intro init; rfl
  | cons x l ih =>
    intro init
    rw [List.foldl_cons, List.filter_cons]
    by_cases hc : c x = true
    · rw [if_pos hc, if_pos hc, List.foldl_cons]
      exact ih _
    · rw [if_neg hc, if_neg hc]
      exact ih _

/-- A fold of guarded `schedule_event` calls changes only the event
queue. -/
theorem foldl_guardSchedule_fields {α : Type} (c : α → Bool)
    (ev : SimulationEngine → α → Event) :
    ∀ (l : List α) (s : SimulationEngine),
      ((l.foldl (fun s x => if c x then s.scheduleEvent (ev s x) else s)
          s).requests = s.requests) ∧
      ((l.foldl (fun s x => if c x then s.scheduleEvent (ev s x) else s)
          s).active = s.active) ∧
      ((l.foldl (fun s x => if c x then s.scheduleEvent (ev s x) else s)
          s).currentTime = s.currentTime) ∧
      ((l.foldl (fun s x => if c x then s.scheduleEvent (ev s x) else s)
          s).completedRequests = s.completedRequests) := by
  intro l
  induction l with
  | nil => intro s; exact ⟨rfl, rfl, rfl, rfl⟩
  | cons x l ih =>
    intro s
    rw [List.foldl_cons]
    by_cases hc : c x = true
    · rw [if_pos hc]
      exact ih _
    · rw [if_neg hc]
      exact ih _

theorem findTool_mem {req : Request} {n : String} {t : ToolInstance}
    (h : req.findTool n = some t) :
    t ∈ req.toolInstances ∧ t.toolName = n := by
  refine ⟨List.mem_of_find?_eq_some h, ?_⟩
  have := List.find?_some h
  simpa using this

theorem getDependents_nodup {req : Request} (h : req.dagEdges.Nodup)
    (n : String) : (req.getDependents n).Nodup := by
  unfold Request.getDependents
  refine List.Nodup.map_on ?_ (h.filter _)
  intro x hx y hy hxy
  have hx1 : x.1 = n := by simpa using (List.mem_filter.mp hx).2
  have hy1 : y.1 = n := by simpa using (List.mem_filter.mp hy).2
  exact Prod.ext (hx1.trans hy1.symm) hxy

theorem mem_getDependents {req : Request} {n d : String} :
    d ∈ req.getDependents n ↔ (n, d) ∈ req.dagEdges := by
  unfold Request.getDependents
  constructor
  · intro h
    obtain ⟨e, he, rfl⟩ := List.mem_map.mp h
    obtain ⟨he1, he2⟩ := List.mem_filter.mp he
    have h1 : e.1 = n := by simpa using he2
    rcases e with ⟨a, b⟩
    cases h1
    exact he1
  · intro h
    exact List.mem_map.mpr ⟨(n, d), List.mem_filter.mpr ⟨h, by simp⟩, rfl⟩

/-- Mapping the request store with a function that changes neither ids,
instances, nodes nor edges (plus any rewrite of `completed_requests`)
preserves the run invariant. -/
theorem EngineInv.mapRequests {s : SimulationEngine} (inv : EngineInv s)
    (G : Request → Request) (cr : List Nat)
    (hG : ∀ req, (G req).requestId = req.requestId ∧
      (G req).toolInstances = req.toolInstances ∧
      (G req).dagNodes = req.dagNodes ∧ (G req).dagEdges = req.dagEdges) :
    EngineInv { s with requests := s.requests.map G,
                       completedRequests := cr } := by
  refine ⟨?_, ?_, ?_, inv.qStartDistinct, ?_, inv.qArrivalDistinct, inv.time,
    inv.heap, ?_, ?_, ?_⟩
  · rw [List.map_map]
    have hcomp : (Request.requestId ∘ G) = Request.requestId :=
      funext fun req => (hG req).1
    rw [hcomp]
    exact inv.reqIds
  · intro req' hreq'
    obtain ⟨req, hreq, rfl⟩ := List.mem_map.mp hreq'
    obtain ⟨w1, w2, w3, w4, w5⟩ := inv.wf req hreq
    refine ⟨?_, ?_, ?_, ?_, ?_⟩
    · rw [(hG req).2.1]; exact w1
    · intro t ht
      rw [(hG req).2.1] at ht
      rw [(hG req).1]
      exact w2 t ht
    · rw [(hG req).2.2.1]; exact w3
    · rw [(hG req).2.2.2]; exact w4
    · rw [(hG req).2.2.2]; exact w5
  · intro e he tid hp
    obtain ⟨⟨req₁, hreq₁, hid₁⟩, hall⟩ := inv.qStart e he tid hp
    constructor
    · exact ⟨G req₁, List.mem_map.mpr ⟨req₁, hreq₁, rfl⟩,
        (hG req₁).1.trans hid₁⟩
    · intro req' hreq' hid'
      obtain ⟨req, hreq, rfl⟩ := List.mem_map.mp hreq'
      rw [(hG req).1] at hid'
      obtain ⟨hpd, htp⟩ := hall req hreq hid'
      exact ⟨PredsDone_of_eq_fields (hG req).2.2.2 (hG req).2.1 hpd,
        TargetPending_of_eq_fields (hG req).2.1 htp⟩
  · intro e he r hp
    obtain ⟨h1, h2, h3⟩ := inv.qArrival e he r hp
    refine ⟨h1, h2, ?_⟩
    intro q hq
    obtain ⟨req, hreq, rfl⟩ := List.mem_map.mp hq
    rw [(hG req).1]
    exact h3 req hreq
  · intro req' hreq' t ht hst
    obtain ⟨req, hreq, rfl⟩ := List.mem_map.mp hreq'
    rw [(hG req).2.1] at ht
    obtain ⟨st, h1, h2⟩ := inv.started req hreq t ht hst
    exact ⟨st, h1, PredsDone_of_eq_fields (hG req).2.2.2 (hG req).2.1 h2⟩
  · intro req' hreq' t ht hst
    obtain ⟨req, hreq, rfl⟩ := List.mem_map.mp hreq'
    rw [(hG req).2.1] at ht
    exact inv.done req hreq t ht hst
  · refine ⟨inv.act.1, ?_⟩
    intro tid htid
    obtain ⟨t, h1, h2⟩ := inv.act.2 tid htid
    refine ⟨t, ?_, h2⟩
    have heq := findToolById_mapRequests s G
      (fun req => ⟨(hG req).1, (hG req).2.1⟩) tid
    exact heq.trans h1

/-- `_check_and_start_dependents` never touches the active set. -/
theorem checkAndStartDependents_active (s : SimulationEngine)
    (tid : Nat × String) :
    (s.checkAndStartDependents tid).active = s.active := by
  unfold SimulationEngine.checkAndStartDependents
  split
  · rfl
  · rename_i req hreq
    have hfold := foldl_guardSchedule_fields
      (fun depName => req.canStartTool depName &&
        (match req.findTool depName with
         | some t => t.status == ToolStatus.pending
         | none => false))
      (fun s depName => { timestamp := s.currentTime, priority := 0,
                          payload := .toolStart (req.requestId, depName) })
      (req.getDependents tid.2) s
    cases hc : req.isCompleted with
    | true => exact hfold.2.1
    | false => exact hfold.2.1


/-- `_check_and_start_dependents` preserves the run invariant, provided no
queued TOOL_START event already targets a DAG successor of the finished
tool inside its own request. -/
theorem EngineInv.checkAndStartDependents {s : SimulationEngine}
    (inv : EngineInv s) (tid : Nat × String)
    (hnosucc : ∀ req ∈ s.requests, req.requestId = tid.1 →
      ∀ e ∈ s.eventQueue.heap, ∀ tid', e.payload = .toolStart tid' →
        tid'.1 = tid.1 → tid'.2 ∉ req.getDependents tid.2) :
    EngineInv (s.checkAndStartDependents tid) := by
  unfold SimulationEngine.checkAndStartDependents
  split
  · exact inv
  · rename_i req hfound
    have hreq : req ∈ s.requests := List.mem_of_find?_eq_some hfound
    have hid : req.requestId = tid.1 := by simpa using List.find?_some hfound
    have hguard : (req.getDependents tid.2).foldl
        (fun s1 depName =>
          if (req.canStartTool depName &&
              (match req.findTool depName with
               | some t => t.status == ToolStatus.pending
               | none => false)) = true then
            s1.scheduleEvent { timestamp := s1.currentTime, priority := 0,
                               payload := .toolStart (req.requestId, depName) }
          else s1) s
        = ((req.getDependents tid.2).filter fun depName =>
            req.canStartTool depName &&
              (match req.findTool depName with
               | some t => t.status == ToolStatus.pending
               | none => false)).foldl
          (fun s1 depName =>
            s1.scheduleEvent { timestamp := s1.currentTime, priority := 0,
                               payload := .toolStart (req.requestId, depName) })
          s :=
      foldl_guard_filter _ _ _ _
    have hfoldInv : EngineInv ((req.getDependents tid.2).foldl
        (fun s1 depName =>
          if (req.canStartTool depName &&
              (match req.findTool depName with
               | some t => t.status == ToolStatus.pending
               | none => false)) = true then
            s1.scheduleEvent { timestamp := s1.currentTime, priority := 0,
                               payload := .toolStart (req.requestId, depName) }
          else s1) s) := by
      rw [hguard]
      refine scheduleRoots_inv req.requestId _ s inv ?_ ⟨req, hreq, rfl⟩ ?_ ?_
      · exact ((getDependents_nodup (inv.wf req hreq).2.2.2.1 tid.2).filter _)
      · intro req' hreq' hid' d hd
        have hrr : req' = req := nodup_map_inj inv.reqIds hreq' hreq hid'
        subst hrr
        obtain ⟨hdmem, hcond⟩ := List.mem_filter.mp hd
        rw [Bool.and_eq_true] at hcond
        obtain ⟨hcs, hpd⟩ := hcond
        cases hft : req'.findTool d with
        | none => rw [hft] at hpd; cases hpd
        | some td =>
        rw [hft] at hpd
        have htdp : td.status = .pending := by simpa using hpd
        obtain ⟨htdmem, htdname⟩ := findTool_mem hft
        have hwfreq := inv.wf req' hreq'
        constructor
        · intro e he hed tp htp hname
          have hdep : e.1 ∈ req'.getDependencies d := by
            unfold Request.getDependencies
            exact List.mem_map.mpr
              ⟨e, List.mem_filter.mpr ⟨he, by simpa using hed⟩, rfl⟩
          unfold Request.canStartTool at hcs
          have hcs' := (List.all_eq_true.mp hcs) e.1 hdep
          cases hfe : req'.findTool e.1 with
          | none => rw [hfe] at hcs'; cases hcs'
          | some tc =>
          rw [hfe] at hcs'
          have htcc : tc.status = .completed := by simpa using hcs'
          obtain ⟨htcmem, htcname⟩ := findTool_mem hfe
          have htpc : tp = tc :=
            nodup_map_inj hwfreq.1 htp htcmem (hname.trans htcname.symm)
          subst htpc
          obtain ⟨f, hf1, hf2⟩ := inv.done req' hreq' tp htp htcc
          exact ⟨htcc, f, hf1, hf2⟩
        · intro t' ht' hn'
          have : t' = td :=
            nodup_map_inj hwfreq.1 ht' htdmem (hn'.trans htdname.symm)
          rw [this]
          exact htdp
      · intro e he tid' hp h1 hmem
        exact hnosucc req hreq hid e he tid' hp (h1.trans hid)
          ((List.mem_filter.mp hmem).1)
    have hmain : ∀ s1 : SimulationEngine, EngineInv s1 →
        EngineInv (if req.isCompleted = true then
          { s1 with
            requests := s1.requests.map fun q =>
              if q.requestId = req.requestId then
                { q with finishTime := some s1.currentTime }
              else q,
            completedRequests := s1.completedRequests ++ [req.requestId] }
        else s1) := by
      intro s1 hinv1
      by_cases hc : req.isCompleted = true
      · rw [if_pos hc]
        refine hinv1.mapRequests _ _ ?_
        intro q
        by_cases hq : q.requestId = req.requestId <;> simp [hq]
      · rw [if_neg hc]
        exact hinv1
    exact hmain _ hfoldInv

/-- Finalising a tool never touches fields other than the store, the active
set, the queue and `completed_requests`; in particular it removes exactly the
finalised id from the active set. -/
theorem finalizeTool_active (s : SimulationEngine) (tid : Nat × String) :
    (s.finalizeTool tid).active = s.active.filter fun a => a ≠ tid := by
  show (SimulationEngine.checkAndStartDependents
      { s with
        requests := updateTool s.requests tid fun t =>
          { t with status := .completed, finishTime := some s.currentTime },
        active := s.active.filter fun a => a ≠ tid } tid).active
    = s.active.filter fun a => a ≠ tid
  rw [checkAndStartDependents_active]

/-- `finalize` inside `_handle_resource_completion` preserves the run
invariant for any currently active (hence RUNNING) tool. -/
theorem EngineInv.finalizeTool {s : SimulationEngine} (inv : EngineInv s)
    (tid : Nat × String) (hmem : tid ∈ s.active) :
    EngineInv (s.finalizeTool tid) := by
  obtain ⟨t, hfind, hrunning⟩ := inv.act.2 tid hmem
  obtain ⟨req₀, hreq₀, hid₀, ht₀, htid₀⟩ := findToolById_mem hfind
  have htname : t.toolName = tid.2 := congrArg Prod.snd htid₀
  have hWF₀ := inv.wf req₀ hreq₀
  have hnostart : ∀ e ∈ s.eventQueue.heap, ∀ tid',
      e.payload = .toolStart tid' → tid'.1 = tid.1 → tid'.2 ≠ tid.2 := by
    intro e he tid' hp h1 h2
    obtain ⟨_, hall⟩ := inv.qStart e he tid' hp
    obtain ⟨_, htp⟩ := hall req₀ hreq₀ (hid₀.trans h1.symm)
    have hcon := htp t ht₀ (htname.trans h2.symm)
    rw [hrunning] at hcon
    cases hcon
  have hnosucc : ∀ e ∈ s.eventQueue.heap, ∀ tid',
      e.payload = .toolStart tid' → tid'.1 = tid.1 →
      tid'.2 ∉ req₀.getDependents tid.2 := by
    intro e he tid' hp h1 hmem'
    have hedge : (tid.2, tid'.2) ∈ req₀.dagEdges := mem_getDependents.mp hmem'
    obtain ⟨_, hall⟩ := inv.qStart e he tid' hp
    obtain ⟨hpd, _⟩ := hall req₀ hreq₀ (hid₀.trans h1.symm)
    have hcon := (hpd (tid.2, tid'.2) hedge rfl t ht₀ htname).1
    rw [hrunning] at hcon
    cases hcon
  have hinv2 : EngineInv { s with
      requests := updateTool s.requests tid fun t' =>
        { t' with status := .completed, finishTime := some s.currentTime },
      active := s.active.filter fun a => a ≠ tid } := by
    set f : ToolInstance → ToolInstance := fun t' =>
      { t' with status := .completed, finishTime := some s.currentTime }
      with hf
    have hfskel : ∀ t', (f t').requestId = t'.requestId ∧
        (f t').toolName = t'.toolName := fun t' => ⟨rfl, rfl⟩
    set u : ToolInstance → ToolInstance := fun t' =>
      if t'.toolName = tid.2 then f t' else t' with hu
    have huname : ∀ t', (u t').toolName = t'.toolName := by
      intro t'
      simp only [hu]
      by_cases hn : t'.toolName = tid.2
      · rw [if_pos hn]
      · rw [if_neg hn]
    have hurid : ∀ t', (u t').requestId = t'.requestId := by
      intro t'
      simp only [hu]
      by_cases hn : t'.toolName = tid.2
      · rw [if_pos hn]
      · rw [if_neg hn]
    set U : Request → Request := fun req =>
      if req.requestId = tid.1 then
        { req with toolInstances := req.toolInstances.map u }
      else req with hU
    have hUid : ∀ req, (U req).requestId = req.requestId := by
      intro req
      simp only [hU]
      by_cases hc : req.requestId = tid.1
      · rw [if_pos hc]
      · rw [if_neg hc]
    have hUT : updateTool s.requests tid f = s.requests.map U := rfl
    have hUpos : ∀ req, req.requestId = tid.1 →
        U req = { req with toolInstances := req.toolInstances.map u } := by
      intro req hc
      simp only [hU]
      rw [if_pos hc]
    have hUneg : ∀ req, ¬ req.requestId = tid.1 → U req = req := by
      intro req hc
      simp only [hU]
      rw [if_neg hc]
    have hkeep₀ : ∀ t' ∈ req₀.toolInstances, t'.status = .completed →
        (u t').status = .completed ∧ (u t').finishTime = t'.finishTime := by
      intro t' ht' hc'
      have hne : ¬ t'.toolName = tid.2 := by
        intro hnn
        have heq : t' = t := nodup_map_inj hWF₀.1 ht' ht₀
          (hnn.trans htname.symm)
        rw [heq, hrunning] at hc'
        cases hc'
      have hut : u t' = t' := by
        simp only [hu]
        exact if_neg hne
      rw [hut]
      exact ⟨hc', rfl⟩
    have hPD : ∀ req ∈ s.requests, ∀ n b, PredsDone req n b →
        PredsDone (U req) n b := by
      intro req hreq n b h
      by_cases hc : req.requestId = tid.1
      · rw [hUpos req hc]
        have hre : req = req₀ :=
          nodup_map_inj inv.reqIds hreq hreq₀ (hc.trans hid₀.symm)
        subst hre
        exact predsDone_map u huname hkeep₀ h
      · rw [hUneg req hc]
        exact h
    refine ⟨?_, ?_, ?_, inv.qStartDistinct, ?_, inv.qArrivalDistinct,
      inv.time, inv.heap, ?_, ?_, ?_⟩
    · have hcomp : (Request.requestId ∘ U) = Request.requestId :=
        funext fun q => hUid q
      rw [hUT, List.map_map, hcomp]
      exact inv.reqIds
    · intro req' hreq'
      rw [hUT] at hreq'
      obtain ⟨req, hreq, rfl⟩ := List.mem_map.mp hreq'
      obtain ⟨w1, w2, w3, w4, w5⟩ := inv.wf req hreq
      by_cases hc : req.requestId = tid.1
      · rw [hUpos req hc]
        refine ⟨?_, ?_, w3, w4, w5⟩
        · show ((req.toolInstances.map u).map ToolInstance.toolName).Nodup
          have hcomp : (ToolInstance.toolName ∘ u) = ToolInstance.toolName :=
            funext fun t' => huname t'
          rw [List.map_map, hcomp]
          exact w1
        · intro t' ht'
          obtain ⟨t₁, ht₁, rfl⟩ := List.mem_map.mp ht'
          show (u t₁).requestId = req.requestId
          rw [hurid]
          exact w2 t₁ ht₁
      · rw [hUneg req hc]
        exact ⟨w1, w2, w3, w4, w5⟩
    · intro e he tid' hp
      obtain ⟨⟨req₁, hreq₁, hid₁⟩, hall⟩ := inv.qStart e he tid' hp
      refine ⟨⟨U req₁, ?_, (hUid req₁).trans hid₁⟩, ?_⟩
      · rw [hUT]
        exact List.mem_map.mpr ⟨req₁, hreq₁, rfl⟩
      · intro req' hreq' hid'
        rw [hUT] at hreq'
        obtain ⟨req, hreq, rfl⟩ := List.mem_map.mp hreq'
        rw [hUid] at hid'
        obtain ⟨hpd, htp⟩ := hall req hreq hid'
        refine ⟨hPD req hreq _ _ hpd, ?_⟩
        by_cases hc : req.requestId = tid.1
        · rw [hUpos req hc]
          refine targetPending_map u huname ?_ htp
          intro t' ht' hn' hp'
          have hut : u t' = t' := by
            simp only [hu]
            refine if_neg ?_
            intro hnn
            exact hnostart e he tid' hp (hid'.symm.trans hc)
              (hn'.symm.trans hnn)
          rw [hut]
          exact hp'
        · rw [hUneg req hc]
          exact htp
    · intro e he r hp
      obtain ⟨h1, h2, h3⟩ := inv.qArrival e he r hp
      refine ⟨h1, h2, ?_⟩
      intro q hq
      rw [hUT] at hq
      obtain ⟨req, hreq, rfl⟩ := List.mem_map.mp hq
      rw [hUid]
      exact h3 req hreq
    · intro req' hreq' t' ht' hst'
      rw [hUT] at hreq'
      obtain ⟨req, hreq, rfl⟩ := List.mem_map.mp hreq'
      by_cases hc : req.requestId = tid.1
      · rw [hUpos req hc] at ht' ⊢
        obtain ⟨t₁, ht₁, rfl⟩ := List.mem_map.mp ht'
        by_cases hn : t₁.toolName = tid.2
        · have hre : req = req₀ :=
            nodup_map_inj inv.reqIds hreq hreq₀ (hc.trans hid₀.symm)
          subst hre
          have ht1t : t₁ = t := nodup_map_inj hWF₀.1 ht₁ ht₀
            (hn.trans htname.symm)
          have hut : u t₁ = f t₁ := by
            simp only [hu]
            exact if_pos hn
          have hnp : t₁.status ≠ ToolStatus.pending := by
            rw [ht1t, hrunning]
            intro hcon
            cases hcon
          obtain ⟨st, hst1, hpd1⟩ := inv.started req hreq t₁ ht₁ hnp
          refine ⟨st, ?_, ?_⟩
          · rw [hut]
            exact hst1
          · rw [hut]
            have hname2 : (f t₁).toolName = t₁.toolName := (hfskel t₁).2
            rw [hname2]
            have := hPD req hreq t₁.toolName st hpd1
            rw [hUpos req hc] at this
            exact this
        · have hut : u t₁ = t₁ := by
            simp only [hu]
            exact if_neg hn
          rw [hut] at hst' ⊢
          obtain ⟨st, hst1, hpd1⟩ := inv.started req hreq t₁ ht₁ hst'
          refine ⟨st, hst1, ?_⟩
          have := hPD req hreq t₁.toolName st hpd1
          rw [hUpos req hc] at this
          exact this
      · rw [hUneg req hc] at ht' ⊢
        obtain ⟨st, hst1, hpd1⟩ := inv.started req hreq t' ht' hst'
        refine ⟨st, hst1, ?_⟩
        have := hPD req hreq t'.toolName st hpd1
        rw [hUneg req hc] at this
        exact this
    · intro req' hreq' t' ht' hst'
      rw [hUT] at hreq'
      obtain ⟨req, hreq, rfl⟩ := List.mem_map.mp hreq'
      by_cases hc : req.requestId = tid.1
      · rw [hUpos req hc] at ht'
        obtain ⟨t₁, ht₁, rfl⟩ := List.mem_map.mp ht'
        by_cases hn : t₁.toolName = tid.2
        · have hut : u t₁ = f t₁ := by
            simp only [hu]
            exact if_pos hn
          rw [hut]
          exact ⟨s.currentTime, rfl, le_refl _⟩
        · have hut : u t₁ = t₁ := by
            simp only [hu]
            exact if_neg hn
          rw [hut] at hst' ⊢
          exact inv.done req hreq t₁ ht₁ hst'
      · rw [hUneg req hc] at ht'
        exact inv.done req hreq t' ht' hst'
    · refine ⟨List.Nodup.filter _ inv.act.1, ?_⟩
      intro tid' htid'
      have h1 := (List.mem_filter.mp htid').1
      have hne : tid' ≠ tid := by
        simpa using (List.mem_filter.mp htid').2
      obtain ⟨t', hft', hrun'⟩ := inv.act.2 tid' h1
      refine ⟨t', ?_, hrun'⟩
      have heq := findToolById_updateTool_ne s tid tid' f hfskel
        (fun req hreq => (inv.wf req hreq).2.1) hne
      exact heq.trans hft'
  have hns2 : ∀ req ∈ ({ s with
      requests := updateTool s.requests tid fun t' =>
        { t' with status := .completed, finishTime := some s.currentTime },
      active := s.active.filter fun a => a ≠ tid } :
        SimulationEngine).requests,
      req.requestId = tid.1 →
      ∀ e ∈ s.eventQueue.heap, ∀ tid', e.payload = .toolStart tid' →
        tid'.1 = tid.1 → tid'.2 ∉ req.getDependents tid.2 := by
    intro req hreq hidr e he tid' hp h1 hmem'
    unfold updateTool at hreq
    obtain ⟨req', hreq', rfl⟩ := List.mem_map.mp hreq
    have hedges : (if req'.requestId = tid.1 then
        { req' with toolInstances := req'.toolInstances.map fun t' =>
            if t'.toolName = tid.2 then
              { t' with status := .completed,
                        finishTime := some s.currentTime }
            else t' }
      else req').dagEdges = req'.dagEdges := by
      by_cases hc : req'.requestId = tid.1
      · rw [if_pos hc]
      · rw [if_neg hc]
    have hdeps : (if req'.requestId = tid.1 then
        { req' with toolInstances := req'.toolInstances.map fun t' =>
            if t'.toolName = tid.2 then
              { t' with status := .completed,
                        finishTime := some s.currentTime }
            else t' }
      else req').getDependents tid.2 = req'.getDependents tid.2 := by
      unfold Request.getDependents
      rw [hedges]
    rw [hdeps] at hmem'
    have hid' : req'.requestId = tid.1 := by
      have := hidr
      by_cases hc : req'.requestId = tid.1
      · exact hc
      · rw [if_neg hc] at this
        exact absurd this hc
    have hre : req' = req₀ :=
      nodup_map_inj inv.reqIds hreq' hreq₀ (hid'.trans hid₀.symm)
    subst hre
    exact hnosucc e he tid' hp h1 hmem'
  have hfin := hinv2.checkAndStartDependents tid hns2
  exact hfin

/-- An in-place update that only rewrites the remaining-work vector (or any
update preserving id, name, status, start and finish) preserves the run
invariant. -/
theorem EngineInv.updateToolSkeleton {s : SimulationEngine} (inv : EngineInv s)
    (tid : Nat × String) (f : ToolInstance → ToolInstance)
    (hfid : ∀ t, (f t).requestId = t.requestId)
    (hfname : ∀ t, (f t).toolName = t.toolName)
    (hfstatus : ∀ t, (f t).status = t.status)
    (hfstart : ∀ t, (f t).startTime = t.startTime)
    (hffinish : ∀ t, (f t).finishTime = t.finishTime) :
    EngineInv { s with requests := updateTool s.requests tid f } := by
  set u : ToolInstance → ToolInstance := fun t' =>
    if t'.toolName = tid.2 then f t' else t' with hu
  have huname : ∀ t', (u t').toolName = t'.toolName := by
    intro t'
    simp only [hu]
    by_cases hn : t'.toolName = tid.2
    · rw [if_pos hn]; exact hfname t'
    · rw [if_neg hn]
  have hurid : ∀ t', (u t').requestId = t'.requestId := by
    intro t'
    simp only [hu]
    by_cases hn : t'.toolName = tid.2
    · rw [if_pos hn]; exact hfid t'
    · rw [if_neg hn]
  have hustatus : ∀ t', (u t').status = t'.status := by
    intro t'
    simp only [hu]
    by_cases hn : t'.toolName = tid.2
    · rw [if_pos hn]; exact hfstatus t'
    · rw [if_neg hn]
  have hustart : ∀ t', (u t').startTime = t'.startTime := by
    intro t'
    simp only [hu]
    by_cases hn : t'.toolName = tid.2
    · rw [if_pos hn]; exact hfstart t'
    · rw [if_neg hn]
  have hufinish : ∀ t', (u t').finishTime = t'.finishTime := by
    intro t'
    simp only [hu]
    by_cases hn : t'.toolName = tid.2
    · rw [if_pos hn]; exact hffinish t'
    · rw [if_neg hn]
  set U : Request → Request := fun req =>
    if req.requestId = tid.1 then
      { req with toolInstances := req.toolInstances.map u }
    else req with hU
  have hUid : ∀ req, (U req).requestId = req.requestId := by
    intro req
    simp only [hU]
    by_cases hc : req.requestId = tid.1
    · rw [if_pos hc]
    · rw [if_neg hc]
  have hUT : updateTool s.requests tid f = s.requests.map U := rfl
  have hUpos : ∀ req, req.requestId = tid.1 →
      U req = { req with toolInstances := req.toolInstances.map u } := by
    intro req hc
    simp only [hU]
    rw [if_pos hc]
  have hUneg : ∀ req, ¬ req.requestId = tid.1 → U req = req := by
    intro req hc
    simp only [hU]
    rw [if_neg hc]
  have hPD : ∀ (req : Request), ∀ n b, PredsDone req n b →
      PredsDone (U req) n b := by
    intro req n b h
    by_cases hc : req.requestId = tid.1
    · rw [hUpos req hc]
      refine predsDone_map u huname ?_ h
      intro t' _ hc'
      rw [hustatus, hufinish]
      exact ⟨hc', rfl⟩
    · rw [hUneg req hc]
      exact h
  have hTP : ∀ (req : Request), ∀ n, TargetPending req n →
      TargetPending (U req) n := by
    intro req n h
    by_cases hc : req.requestId = tid.1
    · rw [hUpos req hc]
      refine targetPending_map u huname ?_ h
      intro t' _ _ hp
      rw [hustatus]
      exact hp
    · rw [hUneg req hc]
      exact h
  refine ⟨?_, ?_, ?_, inv.qStartDistinct, ?_, inv.qArrivalDistinct, inv.time,
    inv.heap, ?_, ?_, ?_⟩
  · have hcomp : (Request.requestId ∘ U) = Request.requestId :=
      funext fun q => hUid q
    rw [hUT, List.map_map, hcomp]
    exact inv.reqIds
  · intro req' hreq'
    rw [hUT] at hreq'
    obtain ⟨req, hreq, rfl⟩ := List.mem_map.mp hreq'
    obtain ⟨w1, w2, w3, w4, w5⟩ := inv.wf req hreq
    by_cases hc : req.requestId = tid.1
    · rw [hUpos req hc]
      refine ⟨?_, ?_, w3, w4, w5⟩
      · show ((req.toolInstances.map u).map ToolInstance.toolName).Nodup
        have hcomp : (ToolInstance.toolName ∘ u) = ToolInstance.toolName :=
          funext fun t' => huname t'
        rw [List.map_map, hcomp]
        exact w1
      · intro t' ht'
        obtain ⟨t₁, ht₁, rfl⟩ := List.mem_map.mp ht'
        show (u t₁).requestId = req.requestId
        rw [hurid]
        exact w2 t₁ ht₁
    · rw [hUneg req hc]
      exact ⟨w1, w2, w3, w4, w5⟩
  · intro e he tid' hp
    obtain ⟨⟨req₁, hreq₁, hid₁⟩, hall⟩ := inv.qStart e he tid' hp
    refine ⟨⟨U req₁, ?_, (hUid req₁).trans hid₁⟩, ?_⟩
    · rw [hUT]
      exact List.mem_map.mpr ⟨req₁, hreq₁, rfl⟩
    · intro req' hreq' hid'
      rw [hUT] at hreq'
      obtain ⟨req, hreq, rfl⟩ := List.mem_map.mp hreq'
      rw [hUid] at hid'
      obtain ⟨hpd, htp⟩ := hall req hreq hid'
      exact ⟨hPD req _ _ hpd, hTP req _ htp⟩
  · intro e he r hp
    obtain ⟨h1, h2, h3⟩ := inv.qArrival e he r hp
    refine ⟨h1, h2, ?_⟩
    intro q hq
    rw [hUT] at hq
    obtain ⟨req, hreq, rfl⟩ := List.mem_map.mp hq
    rw [hUid]
    exact h3 req hreq
  · intro req' hreq' t' ht' hst'
    rw [hUT] at hreq'
    obtain ⟨req, hreq, rfl⟩ := List.mem_map.mp hreq'
    by_cases hc : req.requestId = tid.1
    · rw [hUpos req hc] at ht' ⊢
      obtain ⟨t₁, ht₁, rfl⟩ := List.mem_map.mp ht'
      rw [hustatus] at hst'
      obtain ⟨st, hst1, hpd1⟩ := inv.started req hreq t₁ ht₁ hst'
      refine ⟨st, ?_, ?_⟩
      · rw [hustart]
        exact hst1
      · rw [huname]
        have := hPD req t₁.toolName st hpd1
        rw [hUpos req hc] at this
        exact this
    · rw [hUneg req hc] at ht' ⊢
      exact inv.started req hreq t' ht' hst'
  · intro req' hreq' t' ht' hst'
    rw [hUT] at hreq'
    obtain ⟨req, hreq, rfl⟩ := List.mem_map.mp hreq'
    by_cases hc : req.requestId = tid.1
    · rw [hUpos req hc] at ht'
      obtain ⟨t₁, ht₁, rfl⟩ := List.mem_map.mp ht'
      rw [hustatus] at hst'
      obtain ⟨fv, hf1, hf2⟩ := inv.done req hreq t₁ ht₁ hst'
      refine ⟨fv, ?_, hf2⟩
      rw [hufinish]
      exact hf1
    · rw [hUneg req hc] at ht'
      exact inv.done req hreq t' ht' hst'
  · refine ⟨inv.act.1, ?_⟩
    intro tid' htid'
    obtain ⟨t, h1, h2⟩ := inv.act.2 tid' htid'
    by_cases he : tid' = tid
    · subst he
      refine ⟨f t, ?_, ?_⟩
      · have heq := findToolById_updateTool s tid' f
          (fun t => ⟨hfid t, hfname t⟩)
        rw [heq, h1]
        rfl
      · rw [hfstatus]
        exact h2
    · refine ⟨t, ?_, h2⟩
      have heq := findToolById_updateTool_ne s tid tid' f
        (fun t => ⟨hfid t, hfname t⟩)
        (fun req hreq => (inv.wf req hreq).2.1) he
      exact heq.trans h1

/-- The work-subtraction pass of `_handle_resource_completion` preserves the
run invariant. -/
theorem EngineInv.workFold (shares : ResourceType → ℚ) (td : ℚ) :
    ∀ (l : List (Nat × String)) (s : SimulationEngine), EngineInv s →
      EngineInv (l.foldl (fun s tid =>
        { s with requests := updateTool s.requests tid fun t =>
            { t with remainingWork := fun r =>
                if t.hasWorkOnResource r then
                  max 0 (t.remainingWork r - shares r * td)
                else t.remainingWork r } }) s) := by
  intro l
  induction l with
  | nil => intro s inv; exact inv
  | cons tid l ih =>
    intro s inv
    rw [List.foldl_cons]
    exact ih _ (inv.updateToolSkeleton tid _ (fun t => rfl) (fun t => rfl)
      (fun t => rfl) (fun t => rfl) (fun t => rfl))

/-- Dereferencing a list of identifiers through the store yields tools whose
ids form a sublist of the identifiers. -/
theorem filterMap_find_toolId_sublist (s : SimulationEngine) :
    ∀ l : List (Nat × String),
      ((l.filterMap fun tid => s.findToolById tid).map
        ToolInstance.toolId).Sublist l := by
  intro l
  induction l with
  | nil => simp
  | cons a l ih =>
    rw [List.filterMap_cons]
    cases hfa : s.findToolById a with
    | none => exact ih.cons a
    | some t =>
      rw [List.map_cons]
      obtain ⟨_, _, _, _, hta⟩ := findToolById_mem hfa
      rw [hta]
      exact ih.cons₂ a

/-- Finalising a duplicate-free batch of active tools preserves the run
invariant. -/
theorem EngineInv.finalizeFold :
    ∀ (l : List (Nat × String)) (s : SimulationEngine), EngineInv s →
      l.Nodup → (∀ x ∈ l, x ∈ s.active) →
      EngineInv (l.foldl (fun s tid => s.finalizeTool tid) s) := by
  intro l
  induction l with
  | nil => intro s inv _ _; exact inv
  | cons a l ih =>
    intro s inv hnd hsub
    rw [List.foldl_cons]
    have hainv := inv.finalizeTool a (hsub a (List.mem_cons_self _ _))
    refine ih _ hainv hnd.of_cons ?_
    intro x hx
    rw [finalizeTool_active]
    refine List.mem_filter.mpr ⟨hsub x (List.mem_cons_of_mem _ hx), ?_⟩
    simp only [decide_eq_true_iff]
    exact fun h => (List.nodup_cons.mp hnd).1 (h ▸ hx)

/-- `_handle_resource_completion` preserves the run invariant. -/
theorem EngineInv.handleResourceCompletion {s : SimulationEngine}
    (inv : EngineInv s) (td : ℚ) :
    EngineInv (s.handleResourceCompletion td) := by
  show EngineInv
    ((((s.active.foldl (fun s1 tid =>
        { s1 with requests := updateTool s1.requests tid fun t =>
            { t with remainingWork := fun r =>
                if t.hasWorkOnResource r then
                  max 0 (t.remainingWork r -
                    computeResourceShares s.capacities s.activeToolInstances r
                      * td)
                else t.remainingWork r } }) s).activeToolInstances.filter
          fun t => t.isCompleted).map fun t => t.toolId).foldl
      (fun s tid => s.finalizeTool tid)
      (s.active.foldl (fun s1 tid =>
        { s1 with requests := updateTool s1.requests tid fun t =>
            { t with remainingWork := fun r =>
                if t.hasWorkOnResource r then
                  max 0 (t.remainingWork r -
                    computeResourceShares s.capacities s.activeToolInstances r
                      * td)
                else t.remainingWork r } }) s))
  set s1 := s.active.foldl (fun s1 tid =>
    { s1 with requests := updateTool s1.requests tid fun t =>
        { t with remainingWork := fun r =>
            if t.hasWorkOnResource r then
              max 0 (t.remainingWork r -
                computeResourceShares s.capacities s.activeToolInstances r
                  * td)
            else t.remainingWork r } }) s with hs1
  have h1 : EngineInv s1 :=
    EngineInv.workFold _ td s.active s inv
  have hsubl : (((s1.activeToolInstances.filter fun t => t.isCompleted).map
      fun t => t.toolId)).Sublist s1.active := by
    have hsub1 : ((s1.activeToolInstances.filter fun t => t.isCompleted).map
        fun t => t.toolId).Sublist
        (s1.activeToolInstances.map fun t => t.toolId) :=
      (List.filter_sublist _).map _
    have hsub2 : (s1.activeToolInstances.map fun t => t.toolId).Sublist
        s1.active := filterMap_find_toolId_sublist s1 s1.active
    exact hsub1.trans hsub2
  refine EngineInv.finalizeFold _ s1 h1 ?_ ?_
  · exact h1.act.1.sublist hsubl
  · intro x hx
    exact hsubl.subset hx

/-- Advancing the clock to a time at or before every queued event preserves
the run invariant. -/
theorem EngineInv.advanceTime {s : SimulationEngine} (inv : EngineInv s)
    (t : ℚ) (hq : ∀ e ∈ s.eventQueue.heap, t ≤ e.timestamp)
    (hnow : s.currentTime ≤ t) :
    EngineInv { s with currentTime := t } := by
  refine ⟨inv.reqIds, inv.wf, inv.qStart, inv.qStartDistinct, inv.qArrival,
    inv.qArrivalDistinct, hq, inv.heap, inv.started, ?_, inv.act⟩
  intro req hreq t' ht' hst'
  obtain ⟨fv, h1, h2⟩ := inv.done req hreq t' ht' hst'
  exact ⟨fv, h1, h2.trans hnow⟩

/-- Any completion time the oracle reports lies strictly after the current
time: every candidate is `now + remaining/share` with `remaining > ε > 0`
and `share > 0`. -/
theorem findNextCompletion_gt {s : SimulationEngine} {c : ℚ}
    (h : s.findNextCompletion = some c) : s.currentTime < c := by
  unfold SimulationEngine.findNextCompletion at h
  cases htools : s.activeToolInstances with
  | nil => rw [htools] at h; simp at h
  | cons t0 rest =>
    rw [htools] at h
    simp only [List.isEmpty_cons, Bool.false_eq_true, if_false] at h
    rw [engine_fold_eq_candidates, foldl_candMin_none] at h
    have hmem := List.min?_mem (fun a b => min_choice a b) h
    obtain ⟨t1, ht1, hr⟩ := List.mem_flatMap.mp hmem
    obtain ⟨r, hrmem, hif⟩ := List.mem_filterMap.mp hr
    by_cases hcond : EPSILON < t1.remainingWork r ∧
        0 < computeResourceShares s.capacities (t0 :: rest) r
    · rw [if_pos hcond] at hif
      obtain ⟨h1, h2⟩ := hcond
      have heps : (0 : ℚ) < EPSILON := by norm_num [EPSILON]
      have hdiv : 0 < t1.remainingWork r /
          computeResourceShares s.capacities (t0 :: rest) r :=
        div_pos (heps.trans h1) h2
      have hxc := Option.some.inj hif
      rw [← hxc]
      exact lt_add_of_pos_right _ hdiv
    · rw [if_neg hcond] at hif
      cases hif

theorem head?_getD_mem {l : List Event} {e : Event} (h : l.head? = some e) :
    l.getD 0 default = e ∧ e ∈ l := by
  cases l with
  | nil => cases h
  | cons a l =>
    have ha : a = e := by
      have hh : some a = some e := h
      exact Option.some.inj hh
    subst ha
    exact ⟨rfl, List.mem_cons_self _ _⟩

/-- The step counter plays no role in the run invariant. -/
theorem EngineInv.totalStepsIrrel {s : SimulationEngine} (inv : EngineInv s)
    (n : Nat) : EngineInv { s with totalSteps := n } :=
  ⟨inv.reqIds, inv.wf, inv.qStart, inv.qStartDistinct, inv.qArrival,
   inv.qArrivalDistinct, inv.time, inv.heap, inv.started, inv.done, inv.act⟩

/-- One loop iteration of `run` preserves the run invariant. -/
theorem EngineInv.step {s : SimulationEngine} (inv : EngineInv s)
    (untilT : ℚ) (maxSteps : Option Nat) {s' : SimulationEngine}
    (h : SimulationEngine.step untilT maxSteps s = .ok (some s')) :
    EngineInv s' := by
  simp only [SimulationEngine.step] at h
  split at h
  · simp at h
  · split at h
    · simp at h
    · split at h
      · simp at h
      · rename_i t hIM
        split at h
        · simp at h
        · split at h
          · -- event branch: `some t = next_start_time`
            rename_i hEq
            split at h
            · simp at h
            · rename_i event queue hpop
              have hne : s.eventQueue.heap ≠ [] := by
                intro hnil
                unfold EventQueue.pop heappop at hpop
                rw [hnil] at hpop
                simp at hpop
              obtain ⟨l', hpp, hperm, hmh⟩ :=
                heappop_spec s.eventQueue.heap inv.heap hne
              have hpop2 : event = s.eventQueue.heap.getD 0 default ∧
                  queue.heap = l' := by
                unfold EventQueue.pop at hpop
                rw [hpp] at hpop
                have hpop3 := Option.some.inj hpop
                constructor
                · exact (congrArg Prod.fst hpop3).symm
                · exact (congrArg (fun p => (Prod.snd p).heap) hpop3).symm
              obtain ⟨hev, hqh⟩ := hpop2
              have hroot_mem : event ∈ s.eventQueue.heap := by
                rw [hev]
                exact hperm.mem_iff.mpr (List.mem_cons_self _ _)
              have hmem_l' : ∀ e ∈ l', e ∈ s.eventQueue.heap := fun e he' =>
                hperm.mem_iff.mpr (List.mem_cons_of_mem _ he')
              have hroot_le : ∀ e ∈ l', event.timestamp ≤ e.timestamp := by
                intro e he'
                rw [hev]
                exact Event.le_timestamp
                  (isMinHeap_root_le_mem _ inv.heap e (hmem_l' e he'))
              have hnow_le : s.currentTime ≤ event.timestamp :=
                inv.time event hroot_mem
              have hPairT : List.Pairwise DistinctToolTargets
                  (event :: l') := by
                rw [hev]
                exact (hperm.pairwise_iff
                  (fun hx => distinctToolTargets_symm hx)).mp
                  inv.qStartDistinct
              have hPairA : List.Pairwise DistinctArrivalIds
                  (event :: l') := by
                rw [hev]
                exact (hperm.pairwise_iff
                  (fun hx => distinctArrivalIds_symm hx)).mp
                  inv.qArrivalDistinct
              have hinv1 : EngineInv
                  { s with eventQueue := queue, currentTime := event.timestamp } := by
                refine ⟨inv.reqIds, inv.wf, ?_, ?_, ?_, ?_, ?_, ?_,
                  inv.started, ?_, inv.act⟩
                · intro e he tid hp
                  have he' : e ∈ l' := by rw [← hqh]; exact he
                  exact inv.qStart e (hmem_l' e he') tid hp
                · show List.Pairwise DistinctToolTargets queue.heap
                  rw [hqh]
                  exact List.Pairwise.of_cons hPairT
                · intro e he r hp
                  have he' : e ∈ l' := by rw [← hqh]; exact he
                  exact inv.qArrival e (hmem_l' e he') r hp
                · show List.Pairwise DistinctArrivalIds queue.heap
                  rw [hqh]
                  exact List.Pairwise.of_cons hPairA
                · intro e he
                  have he' : e ∈ l' := by rw [← hqh]; exact he
                  exact hroot_le e he'
                · show IsMinHeap queue.heap
                  rw [hqh]
                  exact hmh
                · intro req hreq t' ht' hst'
                  obtain ⟨fv, h1, h2⟩ := inv.done req hreq t' ht' hst'
                  exact ⟨fv, h1, h2.trans hnow_le⟩
              split at h
              · -- REQUEST_ARRIVAL
                rename_i req hpayload
                injection h with h1
                injection h1 with h2
                subst h2
                obtain ⟨hwfr, hfr, hids⟩ :=
                  inv.qArrival event hroot_mem req hpayload
                have hqarr : ∀ e ∈
                    ({ s with eventQueue := queue, currentTime := event.timestamp } :
                      SimulationEngine).eventQueue.heap, ∀ r',
                    e.payload = .requestArrival r' →
                    r'.requestId ≠ req.requestId := by
                  intro e he r' hp'
                  have he' : e ∈ l' := by rw [← hqh]; exact he
                  have hd := (List.pairwise_cons.mp hPairA).1 e he'
                  exact fun hh => hd req r' hpayload hp' hh.symm
                exact (EngineInv.handleRequestArrival hinv1 req hwfr hfr
                  hids hqarr).totalStepsIrrel _
              · -- TOOL_START
                rename_i tid hpayload
                cases hts : SimulationEngine.handleToolStart { s with eventQueue := queue, currentTime := event.timestamp } tid with
                | error msg =>
                  rw [hts] at h
                  simp [Except.map] at h
                | ok s2 =>
                  rw [hts] at h
                  simp only [Except.map] at h
                  injection h with h1
                  injection h1 with h2
                  subst h2
                  obtain ⟨_, hall⟩ := inv.qStart event hroot_mem tid hpayload
                  have hnotar : ∀ e ∈
                      ({ s with eventQueue := queue, currentTime := event.timestamp } :
                        SimulationEngine).eventQueue.heap, ∀ tid',
                      e.payload = .toolStart tid' → tid' ≠ tid := by
                    intro e he tid' hp'
                    have he' : e ∈ l' := by rw [← hqh]; exact he
                    have hd := (List.pairwise_cons.mp hPairT).1 e he'
                    exact fun hh => hd tid tid' hpayload hp' hh.symm
                  exact (EngineInv.handleToolStart hinv1 tid s2 hts hall
                    hnotar).totalStepsIrrel _
          · -- completion branch: `some t ≠ next_start_time`
            rename_i hNe
            injection h with h1
            injection h1 with h2
            subst h2
            cases hpk : s.eventQueue.peek with
            | none =>
              rw [hpk] at hIM
              have hF : s.findNextCompletion = some t := hIM
              have hlt := findNextCompletion_gt hF
              have hheap : s.eventQueue.heap = [] := by
                have hpk' : s.eventQueue.heap.head? = none := hpk
                exact List.head?_eq_none_iff.mp hpk'
              have hq : ∀ e ∈ s.eventQueue.heap, t ≤ e.timestamp := by
                intro e he
                rw [hheap] at he
                cases he
              exact ((inv.advanceTime t hq
                hlt.le).handleResourceCompletion _).totalStepsIrrel _
            | some e0 =>
              rw [hpk] at hIM
              simp only [Option.map_some'] at hIM
              cases hF : s.findNextCompletion with
              | none =>
                rw [hF] at hIM
                have hteq : e0.timestamp = t := Option.some.inj hIM
                exfalso
                apply hNe
                rw [hpk]
                exact congrArg some hteq.symm
              | some cf =>
                rw [hF] at hIM
                have hmin : min e0.timestamp cf = t := Option.some.inj hIM
                have hne0 : t ≠ e0.timestamp := by
                  intro hh
                  apply hNe
                  rw [hpk]
                  exact congrArg some hh
                rcases min_cases e0.timestamp cf with ⟨hmc, _⟩ | ⟨hmc, hlt'⟩
                · rw [hmc] at hmin
                  exact absurd hmin.symm hne0
                · rw [hmc] at hmin
                  subst hmin
                  have hlt := findNextCompletion_gt hF
                  obtain ⟨hroot, hrm⟩ := head?_getD_mem (l := s.eventQueue.heap)
                    (e := e0) hpk
                  have hq : ∀ e ∈ s.eventQueue.heap, cf ≤ e.timestamp := by
                    intro e he
                    have h0 : e0.timestamp ≤ e.timestamp := by
                      rw [← hroot]
                      exact Event.le_timestamp
                        (isMinHeap_root_le_mem _ inv.heap e he)
                    exact (hlt'.le).trans h0
                  exact ((inv.advanceTime cf hq
                    hlt.le).handleResourceCompletion _).totalStepsIrrel _

/-- `run` preserves the run invariant for any fuel. -/
theorem EngineInv.runAux (untilT : ℚ) (maxSteps : Option Nat) :
    ∀ (fuel : Nat) (s s' : SimulationEngine), EngineInv s →
      SimulationEngine.runAux untilT maxSteps fuel s = .ok s' →
      EngineInv s' := by
  intro fuel
  induction fuel with
  | zero =>
    intro s s' inv h
    have hss : s = s' := Except.ok.inj h
    exact hss ▸ inv
  | succ fuel ih =>
    intro s s' inv h
    unfold SimulationEngine.runAux at h
    cases hst : SimulationEngine.step untilT maxSteps s with
    | error e => rw [hst] at h; cases h
    | ok o =>
      rw [hst] at h
      cases o with
      | none =>
        have hss : s = s' := Except.ok.inj h
        exact hss ▸ inv
      | some s2 =>
        exact ih s2 s' (inv.step untilT maxSteps hst) h

/-- A fresh engine satisfies the run invariant. -/
theorem EngineInv.mkEngine (caps : ResourceType → ℚ) :
    EngineInv (mkEngine caps) := by
  refine ⟨?_, ?_, ?_, ?_, ?_, ?_, ?_, ?_, ?_, ?_, ?_⟩
  · exact List.nodup_nil
  · intro req hreq
    exact absurd hreq (List.not_mem_nil req)
  · intro e he tid hp
    exact absurd he (List.not_mem_nil e)
  · exact List.Pairwise.nil
  · intro e he r hp
    exact absurd he (List.not_mem_nil e)
  · exact List.Pairwise.nil
  · intro e he
    exact absurd he (List.not_mem_nil e)
  · intro i j hc hj
    exact absurd hj (Nat.not_lt_zero j)
  · intro req hreq
    exact absurd hreq (List.not_mem_nil req)
  · intro req hreq
    exact absurd hreq (List.not_mem_nil req)
  · exact ⟨List.nodup_nil, fun tid htid => absurd htid (List.not_mem_nil tid)⟩

/-- Scheduling a batch of fresh, well-formed arrival events with distinct
ids into an engine with an empty request store preserves the run
invariant. -/
theorem scheduleArrivals_inv :
    ∀ (evts : List Event) (s : SimulationEngine), EngineInv s →
      s.requests = [] →
      (∀ e ∈ evts, s.currentTime ≤ e.timestamp) →
      (∀ e ∈ evts, ∃ r, e.payload = .requestArrival r ∧ WFRequest r ∧
        FreshRequest r) →
      List.Pairwise DistinctArrivalIds evts →
      (∀ e ∈ s.eventQueue.heap, ∀ e' ∈ evts, DistinctArrivalIds e e') →
      EngineInv (evts.foldl SimulationEngine.scheduleEvent s) := by
  intro evts
  induction evts with
  | nil => intro s inv _ _ _ _ _; exact inv
  | cons e evts ih =>
    intro s inv hreqs hts harr hpair hcross
    rw [List.foldl_cons]
    obtain ⟨r, hp, hwfr, hfr⟩ := harr e (List.mem_cons_self _ _)
    have hinv1 : EngineInv (s.scheduleEvent e) := by
      have he : e = { timestamp := e.timestamp, priority := e.priority, payload := EventPayload.requestArrival r } := by
        rcases e with ⟨ts, pr, pl⟩
        cases hp
        rfl
      rw [he]
      refine inv.schedule_arrival r e.timestamp e.priority
        (hts e (List.mem_cons_self _ _)) hwfr hfr ?_ ?_
      · rw [hreqs]
        intro q hq
        cases hq
      · intro e' he' r' hp'
        have hd := hcross e' he' e (List.mem_cons_self _ _)
        exact hd r' r hp' hp
    refine ih _ hinv1 ?_ ?_ ?_ hpair.of_cons ?_
    · exact hreqs
    · intro e' he'
      exact hts e' (List.mem_cons_of_mem _ he')
    · intro e' he'
      exact harr e' (List.mem_cons_of_mem _ he')
    · intro e1 he1 e2 he2
      rcases mem_heappush he1 with rfl | he1'
      · exact (List.pairwise_cons.mp hpair).1 e2 he2
      · exact hcross e1 he1' e2 (List.mem_cons_of_mem _ he2)

/-- Claim C6.  In every run driven only by request-arrival events (well
formed, fresh, with pairwise-distinct request ids, delivered at nonnegative
times), every tool instance that has left the PENDING state carries a start
time that is at least the finish time of every DAG-predecessor instance in
its request — and every such predecessor is COMPLETED. -/
theorem run_respects_dependencies
    (caps : ResourceType → ℚ) (evts : List Event) (untilT : ℚ)
    (maxSteps : Option Nat) (fuel : Nat) (s' : SimulationEngine)
    (harr : ∀ e ∈ evts, ∃ r, e.payload = .requestArrival r ∧ WFRequest r ∧
      FreshRequest r)
    (hts : ∀ e ∈ evts, 0 ≤ e.timestamp)
    (hids : List.Pairwise DistinctArrivalIds evts)
    (hrun : SimulationEngine.runAux untilT maxSteps fuel
      (evts.foldl SimulationEngine.scheduleEvent (mkEngine caps)) = .ok s') :
    ∀ req ∈ s'.requests, ∀ t ∈ req.toolInstances,
      t.status ≠ .pending →
      ∃ st, t.startTime = some st ∧
        ∀ e ∈ req.dagEdges, e.2 = t.toolName →
          ∀ tp ∈ req.toolInstances, tp.toolName = e.1 →
            tp.status = .completed ∧
              ∃ f, tp.finishTime = some f ∧ f ≤ st := by
  have hinv0 : EngineInv
      (evts.foldl SimulationEngine.scheduleEvent (mkEngine caps)) := by
    refine scheduleArrivals_inv evts (mkEngine caps)
      (EngineInv.mkEngine caps) rfl ?_ harr hids ?_
    · intro e he
      exact hts e he
    · intro e he
      exact absurd he (List.not_mem_nil e)
  have hinv := EngineInv.runAux untilT maxSteps fuel _ s' hinv0 hrun
  intro req hreq t ht hst
  obtain ⟨st, h1, h2⟩ := hinv.started req hreq t ht hst
  exact ⟨st, h1, h2⟩

unseal Rat.add Rat.mul Rat.sub Rat.inv Nat.gcd in
/-- Witness for C6: the two-tool chain `a → b` delivered at t = 0 runs to
completion; its final store's instance of `b` (index 1 of the stored
request's instance list) left PENDING, and the property is evaluated at that
concrete instance. -/
theorem run_respects_dependencies_witness :
    ∃ st,
      ((finalC6.requests.getD 0 requestC6).toolInstances.getD 1
          (mkToolInstance 7 "b" (mkSimpleTool "b" 50 0))).startTime
        = some st ∧
      ∀ e ∈ (finalC6.requests.getD 0 requestC6).dagEdges,
        e.2 = ((finalC6.requests.getD 0 requestC6).toolInstances.getD 1
          (mkToolInstance 7 "b" (mkSimpleTool "b" 50 0))).toolName →
        ∀ tp ∈ (finalC6.requests.getD 0 requestC6).toolInstances,
          tp.toolName = e.1 →
          tp.status = .completed ∧
            ∃ f, tp.finishTime = some f ∧ f ≤ st := by
  have hmem1 : finalC6.requests.getD 0 requestC6 ∈ finalC6.requests := by
    rw [List.getD_eq_getElem _ _ (by decide)]
    exact List.getElem_mem _
  have hmem2 : (finalC6.requests.getD 0 requestC6).toolInstances.getD 1
      (mkToolInstance 7 "b" (mkSimpleTool "b" 50 0)) ∈
      (finalC6.requests.getD 0 requestC6).toolInstances := by
    rw [List.getD_eq_getElem (finalC6.requests.getD 0 requestC6).toolInstances
      (mkToolInstance 7 "b" (mkSimpleTool "b" 50 0)) (by decide)]
    exact List.getElem_mem _
  have hnp : ((finalC6.requests.getD 0 requestC6).toolInstances.getD 1
      (mkToolInstance 7 "b" (mkSimpleTool "b" 50 0))).status ≠
      ToolStatus.pending := by decide
  exact run_respects_dependencies capsTest [evtC6] 10 none 12 finalC6
    (by
      intro e he
      rw [List.mem_singleton] at he
      subst he
      refine ⟨requestC6, rfl, ?_, ?_⟩
      · refine ⟨?_, ?_, ?_, ?_, ?_⟩ <;> decide
      · show ∀ t ∈ requestC6.toolInstances, t.status = ToolStatus.pending
        decide)
    (by
      intro e he
      rw [List.mem_singleton] at he
      subst he
      exact le_of_eq rfl)
    (by simp)
    (by rfl)
    (finalC6.requests.getD 0 requestC6) hmem1
    ((finalC6.requests.getD 0 requestC6).toolInstances.getD 1
      (mkToolInstance 7 "b" (mkSimpleTool "b" 50 0)))
    hmem2 hnp

/-- Claim C1.  For every set of active tool instances and every resource
kind `r`, the share computation assigns each consumer of `r` (each active
tool with remaining work on `r` above ε) the identical rate `C(r)/n(r)`
(`0` when `n(r) = 0`); the sum of assigned shares over all consumers of `r`
is at most `C(r)`, with equality whenever `n(r) > 0`.  The hypothesis
`0 < caps r` is the capacity validation `Resource.__post_init__`
enforces. -/
theorem computeResourceShares_fair (caps : ResourceType → ℚ)
    (tools : List ToolInstance) (r : ResourceType) (hcap : 0 < caps r) :
    (computeResourceShares caps tools r =
      if numConsumers tools r = 0 then 0
      else caps r / (numConsumers tools r : ℚ)) ∧
    ((tools.filter fun t => t.hasWorkOnResource r).map
        fun _ => computeResourceShares caps tools r).sum ≤ caps r ∧
    (0 < numConsumers tools r →
      ((tools.filter fun t => t.hasWorkOnResource r).map
          fun _ => computeResourceShares caps tools r).sum = caps r) := by
  have hlen : (tools.filter fun t => t.hasWorkOnResource r).length
      = numConsumers tools r := rfl
  have hsum : ((tools.filter fun t => t.hasWorkOnResource r).map
      fun _ => computeResourceShares caps tools r).sum
        = (numConsumers tools r : ℚ) * computeResourceShares caps tools r := by
    rw [sum_map_const, hlen]
  by_cases hn : numConsumers tools r = 0
  · have hshare : computeResourceShares caps tools r = 0 := by
      unfold computeResourceShares
      simp [hn]
    refine ⟨by simp [hshare, hn], ?_, ?_⟩
    · rw [hsum, hshare, mul_zero]; exact hcap.le
    · intro h; omega
  · have hn' : 0 < numConsumers tools r := Nat.pos_of_ne_zero hn
    have hshare : computeResourceShares caps tools r
        = caps r / (numConsumers tools r : ℚ) := by
      unfold computeResourceShares
      simp [hn']
    have hcast : (numConsumers tools r : ℚ) ≠ 0 := Nat.cast_ne_zero.mpr hn
    have hfull : ((tools.filter fun t => t.hasWorkOnResource r).map
        fun _ => computeResourceShares caps tools r).sum = caps r := by
      rw [hsum, hshare, mul_div_cancel₀ _ hcast]
    exact ⟨by simp [hshare, hn], hfull.le, fun _ => hfull⟩

/-- Witness for C1: a single consumer of the cpu kind under the test
capacities. -/
theorem computeResourceShares_fair_witness :
    0 < capsTest ResourceType.cpu ∧
    ((computeResourceShares capsTest toolsC1 ResourceType.cpu =
        if numConsumers toolsC1 ResourceType.cpu = 0 then 0
        else capsTest ResourceType.cpu / (numConsumers toolsC1 ResourceType.cpu : ℚ)) ∧
      ((toolsC1.filter fun t => t.hasWorkOnResource ResourceType.cpu).map
          fun _ => computeResourceShares capsTest toolsC1 ResourceType.cpu).sum
        ≤ capsTest ResourceType.cpu ∧
      (0 < numConsumers toolsC1 ResourceType.cpu →
        ((toolsC1.filter fun t => t.hasWorkOnResource ResourceType.cpu).map
            fun _ => computeResourceShares capsTest toolsC1 ResourceType.cpu).sum
          = capsTest ResourceType.cpu)) :=
  ⟨by norm_num [capsTest],
   computeResourceShares_fair capsTest toolsC1 ResourceType.cpu
     (by norm_num [capsTest])⟩

/-- Claim C2.  The next-completion oracle returns the minimum, over all
pairs of an active tool `t` and kind `r` with `remaining_t[r] > ε` and
`share(r) > 0`, of `now + remaining_t[r] / share(r)` (`List.min?`, which is
`none = +∞` on the empty candidate list); and it returns +∞ when the active
set is empty, so no division by a zero share is performed. -/
theorem findNextCompletion_is_min (s : SimulationEngine) :
    s.findNextCompletion =
      (nextCompletionCandidates s.currentTime s.capacities
        s.activeToolInstances).min? ∧
    (s.activeToolInstances = [] → s.findNextCompletion = none) := by
  constructor
  · unfold SimulationEngine.findNextCompletion nextCompletionCandidates
    cases htools : s.activeToolInstances with
    | nil => rfl
    | cons t0 rest =>
      simp only [List.isEmpty_cons, Bool.false_eq_true, if_false]
      rw [engine_fold_eq_candidates, foldl_candMin_none]
  · intro hempty
    unfold SimulationEngine.findNextCompletion
    rw [hempty]
    rfl

/-- Witness for C2: the oracle of a fresh engine (empty active set)
evaluates to +∞, and to the minimum of its (empty) candidate list. -/
theorem findNextCompletion_is_min_witness :
    (mkEngine capsTest).findNextCompletion =
      (nextCompletionCandidates (mkEngine capsTest).currentTime
        (mkEngine capsTest).capacities
        (mkEngine capsTest).activeToolInstances).min? ∧
    ((mkEngine capsTest).activeToolInstances = [] →
      (mkEngine capsTest).findNextCompletion = none) :=
  findNextCompletion_is_min (mkEngine capsTest)

unseal Rat.add Rat.mul Rat.sub Rat.inv Nat.gcd in
/-- Claim C3.  Under capacities C(cpu)=C(network)=100, a single request
arriving at t=0 with two root tools A (cpu 100, network 50) and B (cpu 80)
and no edges runs to completion with finish(B) = 1.6, finish(A) = 1.8, and
request latency 1.8. -/
theorem run_two_roots_fair_share :
    toolOutcome runC3 (0, "tool_b")
        = some (ToolStatus.completed, some 0, some (8 / 5)) ∧
    toolOutcome runC3 (0, "tool_a")
        = some (ToolStatus.completed, some 0, some (9 / 5)) ∧
    latencyOutcome runC3 = some (9 / 5) := by
  refine ⟨by decide, by decide, by decide⟩

unseal Rat.add Rat.mul Rat.sub Rat.inv Nat.gcd in
/-- Claim C5 (refuted — the claim describes the spec's intended boundary
behaviour).  A tool whose template has zero load on every kind is started at
t=0; the spec says it completes at its start time within the same step and
releases its dependents.  In the code, `_handle_tool_start` performs no
completion check, and on the next iteration `_find_next_completion` yields
no candidate pair for the zero-load tool (its remaining work is ≤ ε on every
axis), so the loop `break`s: the tool is left RUNNING forever with no finish
time, and its successor stays PENDING. -/
theorem zero_load_tool_starves :
    toolOutcome runC5 (0, "z") = some (ToolStatus.running, some 0, none) ∧
    toolOutcome runC5 (0, "w") = some (ToolStatus.pending, none, none) ∧
    latencyOutcome runC5 = none := by
  refine ⟨by decide, by decide, by decide⟩

unseal Rat.add Rat.mul Rat.sub Rat.inv Nat.gcd in
/-- Claim C7 (refuted — the collector's own comment says "Each tool's
consumption is stored in tool.current_share[resource_type]", but
`ToolInstance` has no such attribute and the engine never assigns one).
Taking a snapshot with one active cpu consumer raises `AttributeError`
instead of recording utilisation. -/
theorem snapshot_raises_AttributeError :
    errorOf (MetricsCollector.snapshot 0 [activeToolC7] capsTest) =
      some "AttributeError: ToolInstance object has no attribute current_share" := by
  decide

/-- Claim C4 (refuted — `create_from_dag` passes `request=request` to the
`ToolInstance` dataclass constructor, which declares no `request` field, so
every call with a non-empty DAG raises
`TypeError: __init__() got an unexpected keyword argument 'request'`; the
repository's own tests call `create_from_dag` and would all fail). -/
theorem createFromDag_raises_TypeError :
    errorOf (createFromDag "test" 0 ["test_tool"] []
        (fun n => mkSimpleTool n 100 0) 0) =
      some "TypeError: ToolInstance.__init__() got an unexpected keyword argument request" := by
  decide

unseal Rat.add Rat.mul Rat.sub Rat.inv Nat.gcd in
/-- Claim C8 (refuted — `EventQueue` keeps an `_event_counter` "For stable
ordering of same-timestamp events" but never uses it; raw `heapq` on events
compared by `(timestamp, priority)` alone is not stable).  Four events with
identical timestamp and priority pushed in order 1, 2, 3, 4 pop in order
1, 3, 2, 4. -/
theorem eventQueue_tie_order_not_insertion_order :
    popAllIds queueC8 4 = [1, 3, 2, 4] := by
  decide

/-- Claim C9, counterexample to the claim as stated.  Processing a
TOOL_START event for `tool_b`, whose DAG predecessor `tool_a` is still
PENDING, does not fail with a `DependencyViolation`: it returns normally and
`tool_b` is silently marked RUNNING. -/
theorem toolStart_unchecked_counterexample :
    (requestC9.findTool "tool_a").map ToolInstance.status
        = some ToolStatus.pending ∧
    (engineC9.handleToolStart (0, "tool_b")).toOption.map
        (fun s' => (s'.findToolById (0, "tool_b")).map ToolInstance.status)
      = some (some ToolStatus.running) := by
  refine ⟨by decide, by decide⟩

theorem findToolById_startTimeFix (s : SimulationEngine) (tid : Nat × String)
    (rid : Nat) (c : ℚ) :
    SimulationEngine.findToolById
        { s with requests := s.requests.map fun req =>
            if req.requestId = rid ∧ req.startTime = none then
              { req with startTime := some c }
            else req } tid
      = s.findToolById tid := by
  show (s.requests.map _).findSome? _ = _
  rw [findSome?_comp_map]
  unfold SimulationEngine.findToolById
  refine findSome?_congr _ _ _ fun req => ?_
  by_cases h : req.requestId = rid ∧ req.startTime = none
  · rw [if_pos h]
  · rw [if_neg h]

/-- Claim C9, amended.  Processing a TOOL_START event performs no
dependency check at all: whenever the tool id resolves, `_handle_tool_start`
returns normally with the tool marked RUNNING — regardless of the status of
its DAG predecessors.  (Dependency gating exists only at scheduling time, in
`_check_and_start_dependents`, which enqueues a start event only for tools
whose dependencies are all completed.) -/
theorem handleToolStart_no_dependency_check (s : SimulationEngine)
    (tid : Nat × String) (t : ToolInstance)
    (h : s.findToolById tid = some t) :
    ∃ s', s.handleToolStart tid = .ok s' ∧
      (s'.findToolById tid).map ToolInstance.status
        = some ToolStatus.running := by
  unfold SimulationEngine.handleToolStart
  rw [h]
  refine ⟨_, rfl, ?_⟩
  rw [findToolById_startTimeFix]
  have hfind :
      SimulationEngine.findToolById
        { s with requests := updateTool s.requests tid fun t =>
            ({ t with status := .running,
                      startTime := some s.currentTime }).initWork } tid
      = Option.map
          (fun t => ({ t with status := ToolStatus.running,
                              startTime := some s.currentTime }).initWork)
          (s.findToolById tid) :=
    findToolById_updateTool s tid _ (fun _ => ⟨rfl, rfl⟩)
  exact hfind ▸ (by rw [h]; rfl)

/-- Witness for C9's amended theorem, at the C9 scenario state (predecessor
`tool_a` still PENDING). -/
theorem handleToolStart_no_dependency_check_witness :
    ∃ s', engineC9.handleToolStart (0, "tool_b") = .ok s' ∧
      (s'.findToolById (0, "tool_b")).map ToolInstance.status
        = some ToolStatus.running :=
  handleToolStart_no_dependency_check engineC9 (0, "tool_b")
    (mkToolInstance 0 "tool_b" (mkSimpleTool "tool_b" 30 0)) (by rfl)

/-- Claim C10.  A freshly constructed tool instance (status still PENDING,
`initialize_work` not yet called) reports `is_completed() = True`, because
`__post_init__` zero-fills the remaining-work vector; so `is_completed` does
not imply the COMPLETED status. -/
theorem fresh_tool_isCompleted_before_init (requestId : Nat)
    (toolName : String) (tmpl : AgenticTool) :
    (mkToolInstance requestId toolName tmpl).status = ToolStatus.pending ∧
    (mkToolInstance requestId toolName tmpl).isCompleted = true := by
  refine ⟨rfl, ?_⟩
  simp only [ToolInstance.isCompleted, mkToolInstance, ResourceType.all, EPSILON]
  norm_num

end AgenticSim
